import Mathlib

/-!
Verification of `src/manachers_algorithm.py`.

The module under verification offers four entry points, each mapping a string to a
longest palindromic substring:

* `expansion_around_centers` — quadratic expansion around all odd then all even centers;
* `augmentation_with_separator` — quadratic expansion over the separator-augmented string;
* `palindromic_radii_array` — quadratic, builds the full radii array over the augmented
  string, then extracts the best center;
* `manachers_algorithm` — the linear algorithm reusing mirrored radii.

Strings are modelled as `List Char`, Python integers as `Int` (or `Nat` where the value
is provably non-negative and the source arithmetic cannot underflow), Python `while`
loops as well-founded recursion, and the unguarded list subscripts of the linear
algorithm as fallible (`Option`) accesses that fail outside `[0, len)`.
-/

set_option maxHeartbeats 1600000

namespace Manacher

/-- The separator character inserted by the augmentation step. -/
def SEP : Char := '|'

/-- Python's `"|".join(s)`: the characters of `s` with `SEP` between consecutive ones. -/
def pyJoin : List Char → List Char
  | [] => []
  | [c] => [c]
  | c :: d :: rest => c :: SEP :: pyJoin (d :: rest)

/-- The augmented string `s_prime = "|" + "|".join(s) + "|"`. -/
def augment (s : List Char) : List Char := SEP :: (pyJoin s ++ [SEP])

/-- Resolve one bound of a Python slice `s[i:j]` to an offset into `s`:
negative bounds count from the end, and both are clamped to `[0, len]`. -/
def sliceIdx (len : Nat) (i : Int) : Nat :=
  if i < 0 then ((len : Int) + i).toNat else min i.toNat len

/-- Python's slice `s[i : j]` (unit step). -/
def pySlice (s : List Char) (i j : Int) : List Char :=
  (s.drop (sliceIdx s.length i)).take (sliceIdx s.length j - sliceIdx s.length i)

/-- The expansion `while` loop shared by `palindromic_radii_array` and
`manachers_algorithm`: grow `radius` while the characters just outside the current
palindrome at `center` exist and agree.  The Python guard `center - (radius + 1) >= 0`
is rendered as `radius + 1 ≤ center`; the two reads are guarded by the bounds
conjuncts, exactly as in the source's short-circuiting `and`. -/
def expandLoop (sp : List Char) (center radius : Nat) : Nat :=
  if h : radius + 1 ≤ center ∧ center + (radius + 1) < sp.length ∧
      sp.getD (center - (radius + 1)) SEP = sp.getD (center + (radius + 1)) SEP then
    expandLoop sp center (radius + 1)
  else radius
termination_by sp.length - radius
decreasing_by omega

/-- The final scan `for i in range(len(palindrome_radii)): if palindrome_radii[i] >
max_radius: ...`, shared by `palindromic_radii_array` and `manachers_algorithm`;
`i` is the index of the head of the remaining list, `mr, mc` the running
`max_radius, max_center`. -/
def maxScanAux : List Nat → Nat → Nat → Nat → Nat × Nat
  | [], _, mr, mc => (mr, mc)
  | r :: rest, i, mr, mc =>
    if r > mr then maxScanAux rest (i + 1) r i else maxScanAux rest (i + 1) mr mc

/-- Run the max scan from `max_radius, max_center = 0, 0`. -/
def maxScan (radii : List Nat) : Nat × Nat := maxScanAux radii 0 0 0

/-- Shared tail of `palindromic_radii_array` and `manachers_algorithm`:
`start, end = (max_center - max_radius) // 2, (max_center + max_radius - 1) // 2`
followed by `return s[start : end + 1]` (Python `//` is `Int.fdiv`). -/
def radiiToSlice (s : List Char) (maxRadius maxCenter : Nat) : List Char :=
  pySlice s (((maxCenter : Int) - (maxRadius : Int)).fdiv 2)
    (((maxCenter : Int) + (maxRadius : Int) - 1).fdiv 2 + 1)

/-- The `while center < len(s_prime)` loop of `palindromic_radii_array`: expand at every
center independently (from `radius = 0`) and store the resulting radius. -/
def praLoop (sp : List Char) (radii : List Nat) (center : Nat) : List Nat :=
  if center < sp.length then
    praLoop sp (radii.set center (expandLoop sp center 0)) (center + 1)
  else radii
termination_by sp.length - center

/-- `palindromic_radii_array` from the source: augment, fill the radii array by
independent expansion, max-scan it, convert back to original indices, slice. -/
def palindromic_radii_array (s : List Char) : List Char :=
  let sp := augment s
  let radii := praLoop sp (List.replicate sp.length 0) 0
  let p := maxScan radii
  radiiToSlice s p.1 p.2

/-- Result state of the fast-forward loop of `manachers_algorithm`: the updated radii
array, the `center` and `radius` values at loop exit, and — as ghost instrumentation —
the list of positions the loop assigned (`palindrome_radii[center] = ...`). -/
structure FFOut where
  radii : List Nat
  center : Nat
  radius : Nat
  writes : List Nat
deriving Repr, DecidableEq

/-- The `while center <= original_center + original_radius` loop of
`manachers_algorithm`; `oc, orr` are `original_center, original_radius`.  The unguarded
subscripts `palindrome_radii[mirrored_center]` (read) and `palindrome_radii[center]`
(write) are fallible: the run fails (`none`) unless the index is within `[0, len)`.
On a case-3 `break` the returned `radius` is `max_radius`; on normal exit it is the `0`
assigned just before the loop. -/
def fastForward (oc orr : Nat) (radii : List Nat) (center : Nat) : Option FFOut :=
  if hg : center ≤ oc + orr then
    -- mirrored_center = original_center - (center - original_center)
    let mc : Int := (oc : Int) - ((center : Int) - (oc : Int))
    if hmc : 0 ≤ mc ∧ mc.toNat < radii.length then
      let m := radii.getD mc.toNat 0
      -- max_radius = original_center + original_radius - center
      let maxR := oc + orr - center
      if m < maxR then
        if center < radii.length then
          (fastForward oc orr (radii.set center m) (center + 1)).map
            (fun t => ⟨t.radii, t.center, t.radius, center :: t.writes⟩)
        else none
      else if m > maxR then
        if center < radii.length then
          (fastForward oc orr (radii.set center maxR) (center + 1)).map
            (fun t => ⟨t.radii, t.center, t.radius, center :: t.writes⟩)
        else none
      else some ⟨radii, center, maxR, []⟩
    else none
  else some ⟨radii, center, 0, []⟩
termination_by oc + orr + 1 - center
decreasing_by
  · omega
  · omega

/-- The fast-forward loop never moves `center` backwards. -/
lemma fastForward_center_le :
    ∀ (k oc orr : Nat) (radii : List Nat) (center : Nat) (t : FFOut),
      oc + orr + 1 - center ≤ k →
      fastForward oc orr radii center = some t → center ≤ t.center := by
  intro k
  induction k with
  | zero =>
    intro oc orr radii center t hk h
    rw [fastForward] at h
    have hg : ¬ center ≤ oc + orr := by omega
    rw [dif_neg hg] at h
    cases h
    exact le_refl _
  | succ k ih =>
    intro oc orr radii center t hk h
    rw [fastForward] at h
    by_cases hg : center ≤ oc + orr
    · rw [dif_pos hg] at h
      set mc : Int := (oc : Int) - ((center : Int) - (oc : Int)) with hmcdef
      by_cases hmc : 0 ≤ mc ∧ mc.toNat < radii.length
      · rw [dif_pos hmc] at h
        by_cases h1 : radii.getD mc.toNat 0 < oc + orr - center
        · rw [if_pos h1] at h
          by_cases hw : center < radii.length
          · rw [if_pos hw] at h
            rcases Option.map_eq_some'.mp h with ⟨t', ht', rfl⟩
            have := ih oc orr (radii.set center (radii.getD mc.toNat 0)) (center + 1) t'
              (by omega) ht'
            exact Nat.le_of_succ_le this
          · rw [if_neg hw] at h; cases h
        · rw [if_neg h1] at h
          by_cases h2 : radii.getD mc.toNat 0 > oc + orr - center
          · rw [if_pos h2] at h
            by_cases hw : center < radii.length
            · rw [if_pos hw] at h
              rcases Option.map_eq_some'.mp h with ⟨t', ht', rfl⟩
              have := ih oc orr (radii.set center (oc + orr - center)) (center + 1) t'
                (by omega) ht'
              exact Nat.le_of_succ_le this
            · rw [if_neg hw] at h; cases h
          · rw [if_neg h2] at h
            cases h
            exact le_refl _
      · rw [dif_neg hmc] at h; cases h
    · rw [dif_neg hg] at h
      cases h
      exact le_refl _

/-- The outer `while center < len(s_prime)` loop of `manachers_algorithm`: expand at
`center` from the carried `radius`, store the result (a fallible write), then run the
fast-forward loop from `center + 1`.  Returns the finished radii array together with the
ghost trace of fast-forward assignments, each tagged with the `original_center` and
`original_radius` in force when it happened. -/
def outerLoop (sp : List Char) (radii : List Nat) (center radius : Nat) :
    Option (List Nat × List (Nat × Nat × Nat)) :=
  if hc : center < sp.length then
    if center < radii.length then
      if hff : (fastForward center (expandLoop sp center radius)
          (radii.set center (expandLoop sp center radius)) (center + 1)).isSome then
        (outerLoop sp
            ((fastForward center (expandLoop sp center radius)
              (radii.set center (expandLoop sp center radius)) (center + 1)).get hff).radii
            ((fastForward center (expandLoop sp center radius)
              (radii.set center (expandLoop sp center radius)) (center + 1)).get hff).center
            ((fastForward center (expandLoop sp center radius)
              (radii.set center (expandLoop sp center radius)) (center + 1)).get hff).radius).map
          (fun q => (q.1,
            ((fastForward center (expandLoop sp center radius)
              (radii.set center (expandLoop sp center radius)) (center + 1)).get hff).writes.map
              (fun p => (center, expandLoop sp center radius, p)) ++ q.2))
      else none
    else none
  else some (radii, [])
termination_by sp.length - center
decreasing_by
  have := fastForward_center_le (center + 1 + expandLoop sp center radius + 1) center
    (expandLoop sp center radius) (radii.set center (expandLoop sp center radius))
    (center + 1)
    ((fastForward center (expandLoop sp center radius)
      (radii.set center (expandLoop sp center radius)) (center + 1)).get hff)
    (by omega) (Option.some_get hff).symm
  omega

/-- `manachers_algorithm` from the source: augment, run the linear pass, max-scan the
radii array, convert back to original indices, slice.  `none` models an uncaught
`IndexError`. -/
def manachers_algorithm (s : List Char) : Option (List Char) :=
  let sp := augment s
  match outerLoop sp (List.replicate sp.length 0) 0 0 with
  | none => none
  | some q =>
    let p := maxScan q.1
    some (radiiToSlice s p.1 p.2)

/-- Ghost observation: the `(original_center, original_radius, position)` triples of all
assignments performed by the fast-forward loop during a full run on `s`. -/
def manachersTrace (s : List Char) : List (Nat × Nat × Nat) :=
  let sp := augment s
  match outerLoop sp (List.replicate sp.length 0) 0 0 with
  | none => []
  | some q => q.2

/-- Running best-window state of the quadratic scans: Python's
`start, end, maximum_length` triple. -/
structure Window where
  start : Nat
  stop : Nat
  maxLen : Nat
deriving Repr, DecidableEq

/-- The expansion `while` loop of `expansion_around_centers` (and, run on the augmented
string, of `augmentation_with_separator`): widen `[left, right]` while in bounds and
equal, recording the window whenever `current_length = right - left + 1` beats
`maximum_length`. -/
def eacLoop (s : List Char) (left right : Int) (w : Window) : Window :=
  if h : 0 ≤ left ∧ right < (s.length : Int) ∧
      s.getD left.toNat SEP = s.getD right.toNat SEP then
    let cl := (right - left + 1).toNat
    if cl > w.maxLen then eacLoop s (left - 1) (right + 1) ⟨left.toNat, right.toNat, cl⟩
    else eacLoop s (left - 1) (right + 1) w
  else w
termination_by ((s.length : Int) - right).toNat
decreasing_by
  · omega
  · omega

/-- `for i in range(len(s)):` — the odd-length pass of `expansion_around_centers`
(also the single joint pass of `augmentation_with_separator`, whose loop body is
identical, run on the augmented string). -/
def eacOdd (s : List Char) (i : Nat) (w : Window) : Window :=
  if i < s.length then eacOdd s (i + 1) (eacLoop s (i : Int) (i : Int) w)
  else w
termination_by s.length - i

/-- `for i in range(len(s) - 1):` — the even-length pass of
`expansion_around_centers`, windows initialized to `(i, i + 1)`. -/
def eacEven (s : List Char) (i : Nat) (w : Window) : Window :=
  if i < s.length - 1 then eacEven s (i + 1) (eacLoop s (i : Int) ((i : Int) + 1) w)
  else w
termination_by s.length - 1 - i

/-- `expansion_around_centers` from the source: guard the empty string, run the odd
then the even pass from `start, end, maximum_length = 0, 0, 0`, then slice
`s[start : end + 1]`. -/
def expansion_around_centers (s : List Char) : List Char :=
  if s = [] then []
  else
    let w := eacEven s 0 (eacOdd s 0 ⟨0, 0, 0⟩)
    pySlice s (w.start : Int) ((w.stop : Int) + 1)

/-- `augmentation_with_separator` from the source: guard the empty string, run the
joint expansion pass over the augmented string, convert the best window back via
`start, end = start // 2, (end - 1) // 2`, then slice `s[start : end + 1]`. -/
def augmentation_with_separator (s : List Char) : List Char :=
  if s = [] then []
  else
    let sp := augment s
    let w := eacOdd sp 0 ⟨0, 0, 0⟩
    pySlice s ((w.start : Int).fdiv 2) (((w.stop : Int) - 1).fdiv 2 + 1)

/-! ### Specification-side predicates -/

/-- `r` is a feasible palindromic radius at `center` in `sp`: the radius stays inside
the sequence and the symbols at distance `k` from `center` agree for `1 ≤ k ≤ r`. -/
def IsRad (sp : List Char) (center r : Nat) : Prop :=
  r ≤ center ∧ center + r < sp.length ∧
    ∀ k, 1 ≤ k → k ≤ r → sp.getD (center - k) SEP = sp.getD (center + k) SEP

instance isRad_decidable (sp : List Char) (c r : Nat) : Decidable (IsRad sp c r) :=
  decidable_of_iff
    (r ≤ c ∧ c + r < sp.length ∧
      ∀ k < r + 1, 1 ≤ k → sp.getD (c - k) SEP = sp.getD (c + k) SEP) (by
    unfold IsRad
    constructor
    · rintro ⟨h1, h2, h3⟩
      exact ⟨h1, h2, fun k hk1 hk2 => h3 k (by omega) hk1⟩
    · rintro ⟨h1, h2, h3⟩
      exact ⟨h1, h2, fun k hk1 hk2 => h3 k hk2 (by omega)⟩)

/-- Feasible radii are downward closed. -/
lemma isRad_mono {sp : List Char} {c r r' : Nat} (h : IsRad sp c r) (hle : r' ≤ r) :
    IsRad sp c r' :=
  ⟨le_trans hle h.1, by have := h.2.1; omega,
    fun k h1 h2 => h.2.2 k h1 (le_trans h2 hle)⟩

/-- Radius `0` is feasible exactly at in-bounds centers. -/
lemma isRad_zero {sp : List Char} {c : Nat} (h : c < sp.length) : IsRad sp c 0 :=
  ⟨Nat.zero_le _, by omega, fun _ h1 h2 => (by omega : False).elim⟩

/-- Extending feasibility by one step amounts to the expansion guard. -/
lemma isRad_succ {sp : List Char} {c r : Nat} (h : IsRad sp c r)
    (h1 : r + 1 ≤ c) (h2 : c + (r + 1) < sp.length)
    (h3 : sp.getD (c - (r + 1)) SEP = sp.getD (c + (r + 1)) SEP) : IsRad sp c (r + 1) :=
  ⟨h1, h2, fun k hk1 hk2 => by
    rcases Nat.lt_or_ge k (r + 1) with hk | hk
    · exact h.2.2 k hk1 (by omega)
    · have hke : k = r + 1 := by omega
      subst hke; exact h3⟩

/-- The expansion loop never shrinks the radius. -/
lemma expandLoop_ge (sp : List Char) (center : Nat) :
    ∀ radius, radius ≤ expandLoop sp center radius := by
  intro radius
  induction radius using expandLoop.induct sp center with
  | case1 r h ih => rw [expandLoop, dif_pos h]; omega
  | case2 r h => rw [expandLoop, dif_neg h]

/-- If the starting radius is feasible, so is the expansion loop's result. -/
lemma expandLoop_isRad (sp : List Char) (center : Nat) :
    ∀ radius, IsRad sp center radius → IsRad sp center (expandLoop sp center radius) := by
  intro radius
  induction radius using expandLoop.induct sp center with
  | case1 r h ih =>
    intro hr
    rw [expandLoop, dif_pos h]
    exact ih (isRad_succ hr h.1 h.2.1 h.2.2)
  | case2 r h => intro hr; rw [expandLoop, dif_neg h]; exact hr

/-- One past the expansion loop's result is never feasible. -/
lemma expandLoop_succ_not_isRad (sp : List Char) (center : Nat) :
    ∀ radius, ¬ IsRad sp center (expandLoop sp center radius + 1) := by
  intro radius
  induction radius using expandLoop.induct sp center with
  | case1 r h ih => rw [expandLoop, dif_pos h]; exact ih
  | case2 r h =>
    rw [expandLoop, dif_neg h]
    intro hr
    exact h ⟨hr.1, hr.2.1, hr.2.2 (r + 1) (by omega) (by omega)⟩

/-- Any feasible radius is bounded by the expansion loop's result (started feasibly). -/
lemma expandLoop_max {sp : List Char} {center radius : Nat}
    {r : Nat} (hr : IsRad sp center r) : r ≤ expandLoop sp center radius := by
  by_contra hlt
  exact expandLoop_succ_not_isRad sp center radius (isRad_mono hr (by omega))

/-- `radii` stores, at position `j`, exactly the maximal feasible radius of `sp`. -/
def MaxRadAt (sp : List Char) (radii : List Nat) (j : Nat) : Prop :=
  IsRad sp j (radii.getD j 0) ∧ ∀ r, IsRad sp j r → r ≤ radii.getD j 0

/-- Maximal feasible radii are unique. -/
lemma maxVal_unique {sp : List Char} {j v v' : Nat}
    (h1 : IsRad sp j v) (h2 : ∀ r, IsRad sp j r → r ≤ v)
    (h1' : IsRad sp j v') (h2' : ∀ r, IsRad sp j r → r ≤ v') : v = v' :=
  le_antisymm (h2' v h1) (h2 v' h1')

lemma getD_set_self {l : List Nat} {i : Nat} (v : Nat) (h : i < l.length) :
    (l.set i v).getD i 0 = v := by
  simp [List.getD_eq_getElem?_getD, List.getElem?_set_self h]

lemma getD_set_ne {l : List Nat} {i j : Nat} (v : Nat) (h : i ≠ j) :
    (l.set i v).getD j 0 = l.getD j 0 := by
  simp [List.getD_eq_getElem?_getD, List.getElem?_set_ne h]

/-- The quadratic radii-array loop fills every position with the maximal feasible
radius. -/
lemma praLoop_spec (sp : List Char) :
    ∀ radii center, radii.length = sp.length →
      (∀ j, j < center → MaxRadAt sp radii j) →
      (praLoop sp radii center).length = sp.length ∧
        ∀ j, j < sp.length → MaxRadAt sp (praLoop sp radii center) j := by
  intro radii center
  induction radii, center using praLoop.induct sp with
  | case1 radii center h ih =>
    intro hlen hinv
    rw [praLoop, if_pos h]
    apply ih
    · simpa using hlen
    · intro j hj
      rcases Nat.lt_or_ge j center with hj' | hj'
      · have hmax := hinv j hj'
        unfold MaxRadAt at hmax ⊢
        rw [getD_set_ne _ (by omega)]
        exact hmax
      · have hje : j = center := by omega
        subst hje
        unfold MaxRadAt
        rw [getD_set_self _ (by omega)]
        exact ⟨expandLoop_isRad sp j 0 (isRad_zero h),
          fun r hr => expandLoop_max hr⟩
  | case2 radii center h =>
    intro hlen hinv
    rw [praLoop, if_neg h]
    exact ⟨hlen, fun j hj => hinv j (by omega)⟩

/-! ### Mirror symmetry inside a known palindrome -/

/-- Reflection across the center of a feasible palindrome: positions `p, q` with
`p + q = 2 * oc` and `oc ≤ q ≤ oc + orr` hold equal symbols. -/
lemma isRad_reflect {sp : List Char} {oc orr : Nat} (h : IsRad sp oc orr)
    {p q : Nat} (hsum : p + q = 2 * oc) (hq1 : oc ≤ q) (hq2 : q ≤ oc + orr) :
    sp.getD p SEP = sp.getD q SEP := by
  rcases Nat.eq_or_lt_of_le hq1 with he | hlt
  · have hpq : p = q := by omega
    rw [hpq]
  · have h22 := h.2.2 (q - oc) (by omega) (by omega)
    have e1 : oc - (q - oc) = p := by have := h.1; omega
    have e2 : oc + (q - oc) = q := by omega
    rw [e1, e2] at h22
    exact h22

/-- Symmetric form: two positions symmetric about `oc`, both at distance at most
`orr` past `oc` on the right (the left side follows from the sum), are equal. -/
lemma isRad_reflect' {sp : List Char} {oc orr : Nat} (h : IsRad sp oc orr)
    {p q : Nat} (hsum : p + q = 2 * oc) (hp : p ≤ oc + orr) (hq : q ≤ oc + orr) :
    sp.getD p SEP = sp.getD q SEP := by
  rcases Nat.lt_or_ge q oc with hq1 | hq1
  swap
  · exact isRad_reflect h hsum hq1 hq
  · exact (isRad_reflect h (by omega) (by omega) hp).symm

/-- Lower bound at a fast-forward position: the radius `min m (oc + orr - c)` is
feasible at `c`, where `m` is feasible at the mirrored center. -/
lemma mirror_lower {sp : List Char} {oc orr c m : Nat} (hoc : IsRad sp oc orr)
    (hc1 : oc < c) (hc2 : c ≤ oc + orr)
    (hm1 : IsRad sp (2 * oc - c) m) :
    IsRad sp c (min m (oc + orr - c)) := by
  have horr : orr ≤ oc := hoc.1
  have hlen : oc + orr < sp.length := hoc.2.1
  refine ⟨by omega, by omega, ?_⟩
  intro k hk1 hk2
  have hkm : k ≤ m := le_trans hk2 (Nat.min_le_left _ _)
  have hkM : k ≤ oc + orr - c := le_trans hk2 (Nat.min_le_right _ _)
  have e1 : sp.getD (2 * oc - c - k) SEP = sp.getD (c + k) SEP :=
    isRad_reflect hoc (by omega) (by omega) (by omega)
  have e2 : sp.getD (2 * oc - c - k) SEP = sp.getD (2 * oc - c + k) SEP :=
    hm1.2.2 k hk1 hkm
  have e3 : sp.getD (c - k) SEP = sp.getD (2 * oc - c + k) SEP :=
    isRad_reflect' hoc (by omega) (by omega) (by omega)
  exact (e3.trans e2.symm).trans e1

/-- Case 1 of the fast-forward loop: when the mirrored maximal radius `m` is strictly
inside the boundary, `m` is also maximal at `c`. -/
lemma mirror_case1 {sp : List Char} {oc orr c m : Nat} (hoc : IsRad sp oc orr)
    (hc1 : oc < c) (hc2 : c ≤ oc + orr)
    (hm1 : IsRad sp (2 * oc - c) m) (hmmax : ∀ r, IsRad sp (2 * oc - c) r → r ≤ m)
    (hcase : m < oc + orr - c) :
    ∀ r, IsRad sp c r → r ≤ m := by
  intro r hr
  by_contra hgt
  have horr : orr ≤ oc := hoc.1
  have hlensp : oc + orr < sp.length := hoc.2.1
  have hmlemc : m ≤ 2 * oc - c := hm1.1
  have hr1 : IsRad sp c (m + 1) := isRad_mono hr (by omega)
  have key : IsRad sp (2 * oc - c) (m + 1) := by
    refine ⟨by omega, by omega, ?_⟩
    intro k hk1 hk2
    have e1 : sp.getD (2 * oc - c - k) SEP = sp.getD (c + k) SEP :=
      isRad_reflect hoc (by omega) (by omega) (by omega)
    have e2 : sp.getD (c + k) SEP = sp.getD (c - k) SEP := (hr1.2.2 k hk1 hk2).symm
    have e3 : sp.getD (c - k) SEP = sp.getD (2 * oc - c + k) SEP :=
      isRad_reflect' hoc (by omega) (by omega) (by omega)
    exact (e1.trans e2).trans e3
  have := hmmax (m + 1) key
  omega

/-- Case 2 of the fast-forward loop: when the mirrored maximal radius exceeds the
boundary distance `oc + orr - c`, that distance is maximal at `c`. -/
lemma mirror_case2 {sp : List Char} {oc orr c m : Nat} (hoc : IsRad sp oc orr)
    (hocmax : ∀ r, IsRad sp oc r → r ≤ orr)
    (hc1 : oc < c) (hc2 : c ≤ oc + orr)
    (hm1 : IsRad sp (2 * oc - c) m)
    (hcase : oc + orr - c < m) :
    ∀ r, IsRad sp c r → r ≤ oc + orr - c := by
  intro r hr
  by_contra hgt
  have horr : orr ≤ oc := hoc.1
  have hmlemc : m ≤ 2 * oc - c := hm1.1
  have hr1 : IsRad sp c (oc + orr - c + 1) := isRad_mono hr (by omega)
  have key : IsRad sp oc (orr + 1) := by
    refine ⟨by omega, by have := hr1.2.1; omega, ?_⟩
    intro k hk1 hk2
    rcases Nat.lt_or_ge k (orr + 1) with hk | hk
    · exact hoc.2.2 k hk1 (by omega)
    · have hke : k = orr + 1 := by omega
      subst hke
      have e0 : sp.getD (2 * oc - c - (oc + orr - c + 1)) SEP =
          sp.getD (2 * oc - c + (oc + orr - c + 1)) SEP :=
        hm1.2.2 (oc + orr - c + 1) (by omega) (by omega)
      have e1 : sp.getD (2 * oc - c + (oc + orr - c + 1)) SEP =
          sp.getD (c - (oc + orr - c + 1)) SEP :=
        isRad_reflect' hoc (by omega) (by omega) (by omega)
      have e2 : sp.getD (c - (oc + orr - c + 1)) SEP =
          sp.getD (c + (oc + orr - c + 1)) SEP :=
        hr1.2.2 (oc + orr - c + 1) (by omega) (le_refl _)
      have ea : 2 * oc - c - (oc + orr - c + 1) = oc - (orr + 1) := by omega
      have eb : c + (oc + orr - c + 1) = oc + (orr + 1) := by omega
      rw [ea] at e0
      rw [eb] at e2
      exact (e0.trans e1).trans e2
  have := hocmax (orr + 1) key
  omega

/-- Full specification of the fast-forward loop.  Starting strictly right of a maximal
palindrome `(oc, orr)` with all earlier positions already holding their maximal radii,
the loop succeeds; it fills every position it passes with its maximal radius, stops at
a position carrying a feasible radius, and only writes positions in `(oc, oc + orr]`. -/
lemma fastForward_spec {sp : List Char} {oc orr : Nat}
    (hoc : IsRad sp oc orr) (hocmax : ∀ r, IsRad sp oc r → r ≤ orr) :
    ∀ (k : Nat) (radii : List Nat) (center : Nat),
      oc + orr + 1 - center ≤ k →
      radii.length = sp.length → oc < center → center ≤ oc + orr + 1 →
      (∀ j, j < center → MaxRadAt sp radii j) →
      ∃ t : FFOut, fastForward oc orr radii center = some t ∧
        t.radii.length = sp.length ∧
        center ≤ t.center ∧ oc < t.center ∧ t.center ≤ oc + orr + 1 ∧
        (∀ j, j < t.center → MaxRadAt sp t.radii j) ∧
        (t.center < sp.length → IsRad sp t.center t.radius) ∧
        (∀ p, p ∈ t.writes → center ≤ p ∧ p ≤ oc + orr) := by
  have horr : orr ≤ oc := hoc.1
  have hlensp : oc + orr < sp.length := hoc.2.1
  intro k
  induction k with
  | zero =>
    intro radii center hk hlen hcgt hcle hinv
    have hg : ¬ center ≤ oc + orr := by omega
    refine ⟨⟨radii, center, 0, []⟩, ?_, hlen, le_refl _, hcgt,
      (show center ≤ oc + orr + 1 by omega), hinv, fun hlt => isRad_zero hlt, ?_⟩
    · rw [fastForward, dif_neg hg]
    · intro p hp; exact absurd hp (List.not_mem_nil p)
  | succ k ih =>
    intro radii center hk hlen hcgt hcle hinv
    by_cases hg : center ≤ oc + orr
    · have htn : ((oc : Int) - ((center : Int) - (oc : Int))).toNat = 2 * oc - center := by
        omega
      have hmcp : 0 ≤ (oc : Int) - ((center : Int) - (oc : Int)) ∧
          ((oc : Int) - ((center : Int) - (oc : Int))).toNat < radii.length := by
        constructor
        · omega
        · rw [htn, hlen]; omega
      have hget : radii.getD ((oc : Int) - ((center : Int) - (oc : Int))).toNat 0 =
          radii.getD (2 * oc - center) 0 := by rw [htn]
      have hmirror := hinv (2 * oc - center) (by omega)
      have hm1 : IsRad sp (2 * oc - center) (radii.getD (2 * oc - center) 0) := hmirror.1
      have hmmax := hmirror.2
      have hwlt : center < radii.length := by omega
      rcases Nat.lt_trichotomy (radii.getD (2 * oc - center) 0) (oc + orr - center)
        with hcase | hcase | hcase
      · -- case 1: copy the mirrored radius and advance
        have hnewinv : ∀ j, j < center + 1 →
            MaxRadAt sp (radii.set center (radii.getD (2 * oc - center) 0)) j := by
          intro j hj
          rcases Nat.lt_or_ge j center with hj' | hj'
          · have hold := hinv j hj'
            unfold MaxRadAt at hold ⊢
            rw [getD_set_ne _ (by omega)]
            exact hold
          · have hje : j = center := by omega
            subst hje
            unfold MaxRadAt
            rw [getD_set_self _ hwlt]
            have hlow := mirror_lower hoc (by omega) hg hm1
            rw [Nat.min_eq_left (le_of_lt hcase)] at hlow
            exact ⟨hlow, mirror_case1 hoc (by omega) hg hm1 hmmax hcase⟩
        obtain ⟨t', hft', hl', hm1', hm2', hm3', hinv', hrad', hwr'⟩ :=
          ih (radii.set center (radii.getD (2 * oc - center) 0)) (center + 1)
            (by omega) (by simpa using hlen) (by omega) (by omega) hnewinv
        refine ⟨⟨t'.radii, t'.center, t'.radius, center :: t'.writes⟩, ?_, hl',
          (show center ≤ t'.center by omega), hm2', hm3', hinv', hrad', ?_⟩
        · rw [fastForward, dif_pos hg, dif_pos hmcp, hget, if_pos hcase, if_pos hwlt,
            hft']
          rfl
        · intro p hp
          rcases List.mem_cons.mp hp with hpe | hpt
          · subst hpe; exact ⟨le_refl _, hg⟩
          · have := hwr' p hpt
            exact ⟨by omega, this.2⟩
      · -- case 3: boundary case, carry `max_radius` and break
        refine ⟨⟨radii, center, oc + orr - center, []⟩, ?_, hlen, le_refl _, hcgt,
          (show center ≤ oc + orr + 1 by omega), hinv, ?_, ?_⟩
        · rw [fastForward, dif_pos hg, dif_pos hmcp, hget, if_neg (by omega),
            if_neg (by omega)]
        · intro hlt
          have hlow := mirror_lower hoc (by omega) hg hm1
          rw [hcase, Nat.min_self] at hlow
          exact hlow
        · intro p hp; exact absurd hp (List.not_mem_nil p)
      · -- case 2: clamp to the boundary and advance
        have hnewinv : ∀ j, j < center + 1 →
            MaxRadAt sp (radii.set center (oc + orr - center)) j := by
          intro j hj
          rcases Nat.lt_or_ge j center with hj' | hj'
          · have hold := hinv j hj'
            unfold MaxRadAt at hold ⊢
            rw [getD_set_ne _ (by omega)]
            exact hold
          · have hje : j = center := by omega
            subst hje
            unfold MaxRadAt
            rw [getD_set_self _ hwlt]
            have hlow := mirror_lower hoc (by omega) hg hm1
            rw [Nat.min_eq_right (le_of_lt hcase)] at hlow
            exact ⟨hlow, mirror_case2 hoc hocmax (by omega) hg hm1 hcase⟩
        obtain ⟨t', hft', hl', hm1', hm2', hm3', hinv', hrad', hwr'⟩ :=
          ih (radii.set center (oc + orr - center)) (center + 1)
            (by omega) (by simpa using hlen) (by omega) (by omega) hnewinv
        refine ⟨⟨t'.radii, t'.center, t'.radius, center :: t'.writes⟩, ?_, hl',
          (show center ≤ t'.center by omega), hm2', hm3', hinv', hrad', ?_⟩
        · rw [fastForward, dif_pos hg, dif_pos hmcp, hget, if_neg (by omega),
            if_pos (by omega : radii.getD (2 * oc - center) 0 > oc + orr - center),
            if_pos hwlt, hft']
          rfl
        · intro p hp
          rcases List.mem_cons.mp hp with hpe | hpt
          · subst hpe; exact ⟨le_refl _, hg⟩
          · have := hwr' p hpt
            exact ⟨by omega, this.2⟩
    · refine ⟨⟨radii, center, 0, []⟩, ?_, hlen, le_refl _, hcgt,
        (show center ≤ oc + orr + 1 by omega), hinv, fun hlt => isRad_zero hlt, ?_⟩
      · rw [fastForward, dif_neg hg]
      · intro p hp; exact absurd hp (List.not_mem_nil p)

/-- Unfolding of one outer-loop iteration when the fast-forward loop succeeds. -/
lemma outerLoop_step {sp : List Char} {radii : List Nat} {center radius : Nat} {t : FFOut}
    (hc : center < sp.length) (hw : center < radii.length)
    (hft : fastForward center (expandLoop sp center radius)
      (radii.set center (expandLoop sp center radius)) (center + 1) = some t) :
    outerLoop sp radii center radius =
      (outerLoop sp t.radii t.center t.radius).map
        (fun q => (q.1,
          t.writes.map (fun p => (center, expandLoop sp center radius, p)) ++ q.2)) := by
  rw [outerLoop, dif_pos hc, if_pos hw]
  have hs : (fastForward center (expandLoop sp center radius)
      (radii.set center (expandLoop sp center radius)) (center + 1)).isSome := by
    rw [hft]; rfl
  rw [dif_pos hs]
  have hgts : (fastForward center (expandLoop sp center radius)
      (radii.set center (expandLoop sp center radius)) (center + 1)).get hs = t := by
    simp [hft]
  rw [hgts]

/-- Full specification of the outer loop: starting from a state where all positions
before `center` hold their maximal radii and the carried `radius` is feasible at
`center`, the loop succeeds, the finished array holds the maximal radius at every
position, and every traced fast-forward write `(oc, orr, p)` satisfies
`oc < p ≤ oc + orr`. -/
lemma outerLoop_spec (sp : List Char) :
    ∀ (k : Nat) (radii : List Nat) (center radius : Nat),
      sp.length - center ≤ k →
      radii.length = sp.length →
      (∀ j, j < center → MaxRadAt sp radii j) →
      (center < sp.length → IsRad sp center radius) →
      ∃ q : List Nat × List (Nat × Nat × Nat),
        outerLoop sp radii center radius = some q ∧
        q.1.length = sp.length ∧
        (∀ j, j < sp.length → MaxRadAt sp q.1 j) ∧
        (∀ e, e ∈ q.2 → e.1 < e.2.2 ∧ e.2.2 ≤ e.1 + e.2.1) := by
  intro k
  induction k with
  | zero =>
    intro radii center radius hk hlen hinv hrad
    have hc : ¬ center < sp.length := by omega
    refine ⟨(radii, []), ?_, hlen, ?_, ?_⟩
    · rw [outerLoop, dif_neg hc]
    · intro j hj; exact hinv j (by omega)
    · intro e he; exact absurd he (List.not_mem_nil e)
  | succ k ih =>
    intro radii center radius hk hlen hinv hrad
    by_cases hc : center < sp.length
    · have hw : center < radii.length := by omega
      have hr : IsRad sp center (expandLoop sp center radius) :=
        expandLoop_isRad sp center radius (hrad hc)
      have hrmax : ∀ r', IsRad sp center r' → r' ≤ expandLoop sp center radius :=
        fun r' hr' => expandLoop_max hr'
      have hinv1 : ∀ j, j < center + 1 →
          MaxRadAt sp (radii.set center (expandLoop sp center radius)) j := by
        intro j hj
        rcases Nat.lt_or_ge j center with hj' | hj'
        · have hold := hinv j hj'
          unfold MaxRadAt at hold ⊢
          rw [getD_set_ne _ (by omega)]
          exact hold
        · have hje : j = center := by omega
          subst hje
          unfold MaxRadAt
          rw [getD_set_self _ hw]
          exact ⟨hr, hrmax⟩
      obtain ⟨t, hft, htl, htc1, htc2, htc3, htinv, htrad, htwr⟩ :=
        fastForward_spec hr hrmax (center + expandLoop sp center radius + 1)
          (radii.set center (expandLoop sp center radius)) (center + 1)
          (by omega) (by simpa using hlen) (by omega) (by omega) hinv1
      obtain ⟨q, hq, hql, hqinv, hqwr⟩ :=
        ih t.radii t.center t.radius (by omega) htl htinv htrad
      refine ⟨(q.1,
        t.writes.map (fun p => (center, expandLoop sp center radius, p)) ++ q.2),
        ?_, hql, hqinv, ?_⟩
      · rw [outerLoop_step hc hw hft, hq]
        rfl
      · intro e he
        rcases List.mem_append.mp he with he1 | he2
        · rcases List.mem_map.mp he1 with ⟨p, hp, rfl⟩
          have hpw := htwr p hp
          exact ⟨(show center < p by omega),
            (show p ≤ center + expandLoop sp center radius by omega)⟩
        · exact hqwr e he2
    · refine ⟨(radii, []), ?_, hlen, ?_, ?_⟩
      · rw [outerLoop, dif_neg hc]
      · intro j hj; exact hinv j (by omega)
      · intro e he; exact absurd he (List.not_mem_nil e)

/-- Specification of the full linear pass on any input: it succeeds, fills the radii
array with maximal feasible radii, and all traced fast-forward writes stay within the
palindrome that triggered them. -/
lemma manacher_pass_spec (s : List Char) :
    ∃ q : List Nat × List (Nat × Nat × Nat),
      outerLoop (augment s) (List.replicate (augment s).length 0) 0 0 = some q ∧
      q.1.length = (augment s).length ∧
      (∀ j, j < (augment s).length → MaxRadAt (augment s) q.1 j) ∧
      (∀ e, e ∈ q.2 → e.1 < e.2.2 ∧ e.2.2 ≤ e.1 + e.2.1) := by
  apply outerLoop_spec (augment s) (augment s).length _ 0 0
  · omega
  · simp
  · intro j hj; omega
  · intro h0; exact isRad_zero h0

/-- Length of the separator-join of a nonempty list. -/
lemma pyJoin_length : ∀ (s : List Char) (c : Char),
    (pyJoin (c :: s)).length = 2 * s.length + 1 := by
  intro s
  induction s with
  | nil => intro c; rfl
  | cons d t ih =>
    intro c
    show (c :: SEP :: pyJoin (d :: t)).length = 2 * (d :: t).length + 1
    simp [ih d]
    omega

/-- The augmented string of a nonempty input has odd length `2 n + 1`. -/
lemma augment_length {s : List Char} (h : s ≠ []) :
    (augment s).length = 2 * s.length + 1 := by
  cases s with
  | nil => exact absurd rfl h
  | cons c t =>
    show (SEP :: (pyJoin (c :: t) ++ [SEP])).length = 2 * (c :: t).length + 1
    simp [pyJoin_length t c]
    omega

/-- Two arrays holding the maximal feasible radius at every position agree. -/
lemma radii_eq {sp : List Char} {radii radii' : List Nat}
    (hlen : radii.length = sp.length) (hlen' : radii'.length = sp.length)
    (hinv : ∀ j, j < sp.length → MaxRadAt sp radii j)
    (hinv' : ∀ j, j < sp.length → MaxRadAt sp radii' j) : radii = radii' := by
  apply List.ext_getElem (by omega)
  intro i h1 h2
  have hi : i < sp.length := by omega
  have ha := hinv i hi
  have hb := hinv' i hi
  have hval : radii.getD i 0 = radii'.getD i 0 := maxVal_unique ha.1 ha.2 hb.1 hb.2
  simpa only [List.getD_eq_getElem?_getD, List.getElem?_eq_getElem h1,
    List.getElem?_eq_getElem h2, Option.getD_some] using hval

/-! ### The maximal radius function and the augmented string's symbols -/

/-- The maximal feasible radius at a center, as computed by a fresh expansion. -/
def maxRad (sp : List Char) (c : Nat) : Nat := expandLoop sp c 0

lemma maxRad_isRad {sp : List Char} {c : Nat} (h : c < sp.length) :
    IsRad sp c (maxRad sp c) :=
  expandLoop_isRad sp c 0 (isRad_zero h)

lemma maxRad_max {sp : List Char} {c r : Nat} (h : IsRad sp c r) : r ≤ maxRad sp c :=
  expandLoop_max h

/-- `MaxRadAt` pins the stored value to `maxRad`. -/
lemma maxRadAt_eq {sp : List Char} {radii : List Nat} {j : Nat} (hj : j < sp.length)
    (h : MaxRadAt sp radii j) : radii.getD j 0 = maxRad sp j :=
  maxVal_unique h.1 h.2 (maxRad_isRad hj) (fun _ hr => maxRad_max hr)

/-- Structure of the augmentation on a two-or-more-element list. -/
lemma augment_cons (c : Char) (t : List Char) (h : t ≠ []) :
    augment (c :: t) = SEP :: c :: augment t := by
  cases t with
  | nil => exact absurd rfl h
  | cons d t' => rfl

/-- Odd augmented positions carry the input symbols. -/
lemma augment_getD_odd : ∀ (s : List Char) (j : Nat), j < s.length →
    (augment s).getD (2 * j + 1) SEP = s.getD j SEP := by
  intro s
  induction s with
  | nil => intro j hj; simp at hj
  | cons c t ih =>
    intro j hj
    cases t with
    | nil =>
      have hj0 : j = 0 := by simp at hj; omega
      subst hj0
      rfl
    | cons d t' =>
      rw [augment_cons c (d :: t') (by simp)]
      cases j with
      | zero => rfl
      | succ j' =>
        have h2 : 2 * (j' + 1) + 1 = 2 * j' + 1 + 1 + 1 := by omega
        rw [h2]
        show (augment (d :: t')).getD (2 * j' + 1) SEP = (d :: t').getD j' SEP
        exact ih j' (by simp at hj ⊢; omega)

/-- Even augmented positions carry the separator. -/
lemma augment_getD_even : ∀ (s : List Char) (j : Nat), j ≤ s.length →
    (augment s).getD (2 * j) SEP = SEP := by
  intro s
  induction s with
  | nil =>
    intro j hj
    have hj0 : j = 0 := by simp only [List.length_nil] at hj; omega
    subst hj0
    rfl
  | cons c t ih =>
    intro j hj
    cases t with
    | nil =>
      match j, hj with
      | 0, _ => rfl
      | 1, _ => rfl
    | cons d t' =>
      rw [augment_cons c (d :: t') (by simp)]
      cases j with
      | zero => rfl
      | succ j' =>
        have h2 : 2 * (j' + 1) = 2 * j' + 1 + 1 := by omega
        rw [h2]
        show (augment (d :: t')).getD (2 * j') SEP = SEP
        exact ih j' (by simp at hj ⊢; omega)

/-- Parity invariant: at every center of the augmented string of a nonempty input,
the maximal radius has the parity of the center (`c + maxRad c` is even), because a
failed expansion can only stop at two input symbols or at the sequence ends. -/
lemma maxRad_parity {s : List Char} (hs : s ≠ []) (c : Nat)
    (hc : c < (augment s).length) : (c + maxRad (augment s) c) % 2 = 0 := by
  by_contra hodd
  have hlen : (augment s).length = 2 * s.length + 1 := augment_length hs
  have hr := maxRad_isRad hc
  have hrc := hr.1
  have hrb := hr.2.1
  have h1 : maxRad (augment s) c + 1 ≤ c := by omega
  have h2 : c + (maxRad (augment s) c + 1) < (augment s).length := by omega
  have hel : (augment s).getD (c - (maxRad (augment s) c + 1)) SEP = SEP := by
    have he : c - (maxRad (augment s) c + 1) = 2 * ((c - (maxRad (augment s) c + 1)) / 2) := by
      omega
    rw [he]
    exact augment_getD_even s _ (by omega)
  have her : (augment s).getD (c + (maxRad (augment s) c + 1)) SEP = SEP := by
    have he : c + (maxRad (augment s) c + 1) = 2 * ((c + (maxRad (augment s) c + 1)) / 2) := by
      omega
    rw [he]
    exact augment_getD_even s _ (by omega)
  have hstep : IsRad (augment s) c (maxRad (augment s) c + 1) :=
    isRad_succ hr h1 h2 (by rw [hel, her])
  have := maxRad_max hstep
  omega

/-! ### The final max scan -/

/-- Behaviour of the running max scan: either no element beats the running maximum and
the accumulator survives, or the result is the first element achieving the overall
maximum (which strictly beats the accumulator). -/
lemma maxScanAux_spec : ∀ (l : List Nat) (i mr mc : Nat),
    (maxScanAux l i mr mc = (mr, mc) ∧ ∀ j, j < l.length → l.getD j 0 ≤ mr) ∨
    (∃ jw, jw < l.length ∧
      maxScanAux l i mr mc = (l.getD jw 0, i + jw) ∧
      mr < l.getD jw 0 ∧
      (∀ j, j < l.length → l.getD j 0 ≤ l.getD jw 0) ∧
      (∀ j, j < jw → l.getD j 0 < l.getD jw 0)) := by
  intro l
  induction l with
  | nil =>
    intro i mr mc
    left
    exact ⟨rfl, fun j hj => by simp at hj⟩
  | cons r rest ih =>
    intro i mr mc
    by_cases hr : r > mr
    · rw [maxScanAux, if_pos hr]
      rcases ih (i + 1) r i with ⟨heq, hbound⟩ | ⟨jw, hjw, heq, hlt, hmax, hfirst⟩
      · right
        refine ⟨0, by simp, ?_, ?_, ?_, fun j hj => absurd hj (by omega)⟩
        · rw [heq]
          simp only [List.getD_cons_zero, Nat.add_zero]
        · simpa only [List.getD_cons_zero] using hr
        · intro j hj
          cases j with
          | zero => simp only [List.getD_cons_zero]; exact le_refl r
          | succ j' =>
            simp only [List.getD_cons_succ, List.getD_cons_zero]
            exact hbound j' (by simp only [List.length_cons] at hj; omega)
      · right
        refine ⟨jw + 1, by simp only [List.length_cons]; omega, ?_, ?_, ?_, ?_⟩
        · rw [heq]
          simp only [List.getD_cons_succ]
          congr 1
          omega
        · simp only [List.getD_cons_succ]
          omega
        · intro j hj
          cases j with
          | zero =>
            simp only [List.getD_cons_zero, List.getD_cons_succ]
            omega
          | succ j' =>
            simp only [List.getD_cons_succ]
            exact hmax j' (by simp only [List.length_cons] at hj; omega)
        · intro j hj
          cases j with
          | zero =>
            simp only [List.getD_cons_zero, List.getD_cons_succ]
            omega
          | succ j' =>
            simp only [List.getD_cons_succ]
            exact hfirst j' (by omega)
    · rw [maxScanAux, if_neg hr]
      rcases ih (i + 1) mr mc with ⟨heq, hbound⟩ | ⟨jw, hjw, heq, hlt, hmax, hfirst⟩
      · left
        refine ⟨heq, ?_⟩
        intro j hj
        cases j with
        | zero => simp only [List.getD_cons_zero]; omega
        | succ j' =>
          simp only [List.getD_cons_succ]
          exact hbound j' (by simp only [List.length_cons] at hj; omega)
      · right
        refine ⟨jw + 1, by simp only [List.length_cons]; omega, ?_, ?_, ?_, ?_⟩
        · rw [heq]
          simp only [List.getD_cons_succ]
          congr 1
          omega
        · simp only [List.getD_cons_succ]
          exact hlt
        · intro j hj
          cases j with
          | zero =>
            simp only [List.getD_cons_zero, List.getD_cons_succ]
            omega
          | succ j' =>
            simp only [List.getD_cons_succ]
            exact hmax j' (by simp only [List.length_cons] at hj; omega)
        · intro j hj
          cases j with
          | zero =>
            simp only [List.getD_cons_zero, List.getD_cons_succ]
            omega
          | succ j' =>
            simp only [List.getD_cons_succ]
            exact hfirst j' (by omega)

/-! ### Palindromic substrings of the original string -/

/-- The contiguous substring of `s` starting at `i` of length `m`. -/
def subAt (s : List Char) (i m : Nat) : List Char := (s.drop i).take m

/-- A palindrome: the list equals its own reverse. -/
def IsPal (l : List Char) : Prop := l.reverse = l

/-- Pointwise palindrome property of the window `[i, i + m)` of `s`. -/
def PalAt (s : List Char) (i m : Nat) : Prop :=
  ∀ j, j < m → s.getD (i + j) SEP = s.getD (i + (m - 1 - j)) SEP

lemma subAt_length {s : List Char} {i m : Nat} (him : i + m ≤ s.length) :
    (subAt s i m).length = m := by
  simp only [subAt, List.length_take, List.length_drop]
  omega

lemma subAt_getD {s : List Char} {i m j : Nat} (hj : j < m) (him : i + m ≤ s.length) :
    (subAt s i m).getD j SEP = s.getD (i + j) SEP := by
  have h1 : j < (subAt s i m).length := by rw [subAt_length him]; exact hj
  have h2 : i + j < s.length := by omega
  rw [List.getD_eq_getElem?_getD, List.getElem?_eq_getElem h1,
    List.getD_eq_getElem?_getD, List.getElem?_eq_getElem h2]
  simp [subAt]

lemma isPal_iff_getD {l : List Char} :
    IsPal l ↔ ∀ j, j < l.length → l.getD j SEP = l.getD (l.length - 1 - j) SEP := by
  constructor
  · intro h j hj
    have hrev : l.reverse[j]? = l[j]? := by rw [h]
    rw [List.getElem?_reverse (by simpa using hj)] at hrev
    rw [List.getD_eq_getElem?_getD, List.getD_eq_getElem?_getD, hrev]
  · intro h
    unfold IsPal
    apply List.ext_getElem (by simp)
    intro n h1 h2
    rw [List.getElem_reverse]
    have hh := h n h2
    rw [List.getD_eq_getElem?_getD, List.getElem?_eq_getElem h2, List.getD_eq_getElem?_getD,
      List.getElem?_eq_getElem (by omega)] at hh
    simpa using hh.symm

/-- The pointwise palindrome property is the palindrome property of the substring. -/
lemma palAt_iff_isPal {s : List Char} {i m : Nat} (him : i + m ≤ s.length) :
    PalAt s i m ↔ IsPal (subAt s i m) := by
  constructor
  · intro h
    rw [isPal_iff_getD]
    intro j hj
    rw [subAt_length him] at hj
    rw [subAt_length him]
    rw [subAt_getD hj him, subAt_getD (show m - 1 - j < m by omega) him]
    exact h j hj
  · intro h j hj
    have h2 := (isPal_iff_getD.mp h) j (by rw [subAt_length him]; omega)
    rw [subAt_length him] at h2
    rw [subAt_getD hj him, subAt_getD (show m - 1 - j < m by omega) him] at h2
    exact h2

/-- Key correspondence: a feasible radius `m` at augmented center `2 i + m` is exactly
the pointwise palindrome property of the window `[i, i + m)` of the input. -/
lemma isRad_augment_iff_palAt {s : List Char} (hs : s ≠ []) {i m : Nat}
    (him : i + m ≤ s.length) (hm : 1 ≤ m) :
    IsRad (augment s) (2 * i + m) m ↔ PalAt s i m := by
  have hlen : (augment s).length = 2 * s.length + 1 := augment_length hs
  constructor
  · intro h
    have haux : ∀ j, j < m → 2 * j + 1 ≤ m →
        s.getD (i + j) SEP = s.getD (i + (m - 1 - j)) SEP := by
      intro j hj hhalf
      by_cases hmid : 2 * j + 1 = m
      · rw [show m - 1 - j = j from by omega]
      · have hk := h.2.2 (m - 1 - 2 * j) (by omega) (by omega)
        have e1 : 2 * i + m - (m - 1 - 2 * j) = 2 * (i + j) + 1 := by omega
        have e2 : 2 * i + m + (m - 1 - 2 * j) = 2 * (i + (m - 1 - j)) + 1 := by omega
        rw [e1, e2, augment_getD_odd s (i + j) (by omega),
          augment_getD_odd s (i + (m - 1 - j)) (by omega)] at hk
        exact hk
    intro j hj
    rcases Nat.lt_or_ge (2 * j + 1) (m + 1) with hcmp | hcmp
    · exact haux j hj (by omega)
    · have hj' : m - 1 - j < m := by omega
      have h2 := haux (m - 1 - j) hj' (by omega)
      rw [show m - 1 - (m - 1 - j) = j from by omega] at h2
      exact h2.symm
  · intro h
    refine ⟨by omega, by omega, ?_⟩
    intro k hk1 hk2
    rcases Nat.even_or_odd (m + k) with hpar | hpar
    · have hpar' : (m + k) % 2 = 0 := Nat.even_iff.mp hpar
      have e1 : 2 * i + m - k = 2 * ((2 * i + m - k) / 2) := by omega
      have e2 : 2 * i + m + k = 2 * ((2 * i + m + k) / 2) := by omega
      rw [e1, e2, augment_getD_even s _ (by omega), augment_getD_even s _ (by omega)]
    · have hpar' : (m + k) % 2 = 1 := Nat.odd_iff.mp hpar
      have hjlt : (m - k - 1) / 2 < m := by omega
      have hh := h ((m - k - 1) / 2) hjlt
      have e1 : 2 * i + m - k = 2 * (i + (m - k - 1) / 2) + 1 := by omega
      have e2 : 2 * i + m + k = 2 * (i + (m - 1 - (m - k - 1) / 2)) + 1 := by omega
      rw [e1, e2, augment_getD_odd s _ (by omega), augment_getD_odd s _ (by omega)]
      exact hh

/-! ### Even-length expansion in the original string -/

/-- `e` matched pairs around the gap between positions `i` and `i + 1` of `u`
(the even-length analogue of `IsRad`). -/
def IsRad2 (u : List Char) (i e : Nat) : Prop :=
  e ≤ i + 1 ∧ i + e < u.length ∧
    ∀ k, 1 ≤ k → k ≤ e → u.getD (i + 1 - k) SEP = u.getD (i + k) SEP

lemma isRad2_mono {u : List Char} {i e e' : Nat} (h : IsRad2 u i e) (hle : e' ≤ e) :
    IsRad2 u i e' :=
  ⟨le_trans hle h.1, by have := h.2.1; omega,
    fun k h1 h2 => h.2.2 k h1 (le_trans h2 hle)⟩

lemma isRad2_zero {u : List Char} {i : Nat} (h : i < u.length) : IsRad2 u i 0 :=
  ⟨Nat.zero_le _, by omega, fun _ h1 h2 => (by omega : False).elim⟩

lemma isRad2_succ {u : List Char} {i e : Nat} (h : IsRad2 u i e)
    (h1 : e + 1 ≤ i + 1) (h2 : i + (e + 1) < u.length)
    (h3 : u.getD (i - e) SEP = u.getD (i + (e + 1)) SEP) : IsRad2 u i (e + 1) :=
  ⟨h1, h2, fun k hk1 hk2 => by
    rcases Nat.lt_or_ge k (e + 1) with hk | hk
    · exact h.2.2 k hk1 (by omega)
    · have hke : k = e + 1 := by omega
      subst hke
      rw [show i + 1 - (e + 1) = i - e from by omega]
      exact h3⟩

instance isRad2_decidable (u : List Char) (i e : Nat) : Decidable (IsRad2 u i e) :=
  decidable_of_iff
    (e ≤ i + 1 ∧ i + e < u.length ∧
      ∀ k < e + 1, 1 ≤ k → u.getD (i + 1 - k) SEP = u.getD (i + k) SEP) (by
    unfold IsRad2
    constructor
    · rintro ⟨h1, h2, h3⟩
      exact ⟨h1, h2, fun k hk1 hk2 => h3 k (by omega) hk1⟩
    · rintro ⟨h1, h2, h3⟩
      exact ⟨h1, h2, fun k hk1 hk2 => h3 k hk2 (by omega)⟩)

/-- The maximal number of matched even pairs at the gap `(i, i + 1)`. -/
def maxRad2 (u : List Char) (i : Nat) : Nat := Nat.findGreatest (IsRad2 u i) (i + 1)

lemma maxRad2_isRad2 {u : List Char} {i : Nat} (h : i < u.length) :
    IsRad2 u i (maxRad2 u i) := by
  unfold maxRad2
  exact Nat.findGreatest_spec (Nat.zero_le _) (isRad2_zero h)

lemma maxRad2_max {u : List Char} {i e : Nat} (h : IsRad2 u i e) : e ≤ maxRad2 u i := by
  unfold maxRad2
  exact Nat.le_findGreatest h.1 h

/-! ### Transfer between the original and augmented strings -/

/-- Odd correspondence: radius `r` at input center `i` is radius `2 r + 1` at the
augmented center `2 i + 1`. -/
lemma isRad_odd_iff {u : List Char} (hu : u ≠ []) {i r : Nat} :
    IsRad u i r ↔ IsRad (augment u) (2 * i + 1) (2 * r + 1) := by
  have hlen : (augment u).length = 2 * u.length + 1 := augment_length hu
  constructor
  · intro h
    refine ⟨by have := h.1; omega, by have := h.2.1; omega, ?_⟩
    intro k hk1 hk2
    rcases Nat.even_or_odd k with hpar | hpar
    · have hpar' : k % 2 = 0 := Nat.even_iff.mp hpar
      have hb1 : k / 2 ≤ r := by omega
      have hb2 : 1 ≤ k / 2 := by omega
      have hh := h.2.2 (k / 2) hb2 hb1
      have e1 : 2 * i + 1 - k = 2 * (i - k / 2) + 1 := by have := h.1; omega
      have e2 : 2 * i + 1 + k = 2 * (i + k / 2) + 1 := by omega
      rw [e1, e2, augment_getD_odd u _ (by have ha := h.1; have hb := h.2.1; omega),
        augment_getD_odd u _ (by have ha := h.1; have hb := h.2.1; omega)]
      exact hh
    · have hpar' : k % 2 = 1 := Nat.odd_iff.mp hpar
      have e1 : 2 * i + 1 - k = 2 * ((2 * i + 1 - k) / 2) := by have := h.1; omega
      have e2 : 2 * i + 1 + k = 2 * ((2 * i + 1 + k) / 2) := by omega
      rw [e1, e2, augment_getD_even u _ (by have ha := h.1; have hb := h.2.1; omega),
        augment_getD_even u _ (by have ha := h.1; have hb := h.2.1; omega)]
  · intro h
    refine ⟨by have := h.1; omega, by have := h.2.1; omega, ?_⟩
    intro k hk1 hk2
    have hh := h.2.2 (2 * k) (by omega) (by omega)
    have e1 : 2 * i + 1 - 2 * k = 2 * (i - k) + 1 := by have := h.1; omega
    have e2 : 2 * i + 1 + 2 * k = 2 * (i + k) + 1 := by omega
    rw [e1, e2, augment_getD_odd u _ (by have ha := h.1; have hb := h.2.1; omega),
      augment_getD_odd u _ (by have ha := h.1; have hb := h.2.1; omega)] at hh
    exact hh

/-- Even correspondence: `e` matched pairs at the gap `(i, i + 1)` is radius `2 e` at
the augmented center `2 i + 2`. -/
lemma isRad2_iff {u : List Char} (hu : u ≠ []) {i e : Nat} (hi : i < u.length) :
    IsRad2 u i e ↔ IsRad (augment u) (2 * i + 2) (2 * e) := by
  have hlen : (augment u).length = 2 * u.length + 1 := augment_length hu
  constructor
  · intro h
    refine ⟨by have := h.1; omega, by have := h.2.1; omega, ?_⟩
    intro k hk1 hk2
    rcases Nat.even_or_odd k with hpar | hpar
    · have hpar' : k % 2 = 0 := Nat.even_iff.mp hpar
      have e1 : 2 * i + 2 - k = 2 * ((2 * i + 2 - k) / 2) := by omega
      have e2 : 2 * i + 2 + k = 2 * ((2 * i + 2 + k) / 2) := by omega
      rw [e1, e2, augment_getD_even u _ (by have ha := h.1; have hb := h.2.1; omega),
        augment_getD_even u _ (by have ha := h.1; have hb := h.2.1; omega)]
    · have hpar' : k % 2 = 1 := Nat.odd_iff.mp hpar
      have hb1 : (k + 1) / 2 ≤ e := by omega
      have hb2 : 1 ≤ (k + 1) / 2 := by omega
      have hh := h.2.2 ((k + 1) / 2) hb2 hb1
      have e1 : 2 * i + 2 - k = 2 * (i + 1 - (k + 1) / 2) + 1 := by have := h.1; omega
      have e2 : 2 * i + 2 + k = 2 * (i + (k + 1) / 2) + 1 := by omega
      rw [e1, e2, augment_getD_odd u _ (by have ha := h.1; have hb := h.2.1; omega),
        augment_getD_odd u _ (by have ha := h.1; have hb := h.2.1; omega)]
      exact hh
  · intro h
    refine ⟨by have := h.1; omega, by have := h.2.1; omega, ?_⟩
    intro k hk1 hk2
    have hh := h.2.2 (2 * k - 1) (by omega) (by omega)
    have e1 : 2 * i + 2 - (2 * k - 1) = 2 * (i + 1 - k) + 1 := by have := h.1; omega
    have e2 : 2 * i + 2 + (2 * k - 1) = 2 * (i + k) + 1 := by omega
    rw [e1, e2, augment_getD_odd u _ (by have ha := h.1; have hb := h.2.1; omega),
      augment_getD_odd u _ (by have ha := h.1; have hb := h.2.1; omega)] at hh
    exact hh

/-- The augmented maximal radius at an odd center `2 i + 1`. -/
lemma maxRad_augment_odd {u : List Char} (hu : u ≠ []) {i : Nat} (hi : i < u.length) :
    maxRad (augment u) (2 * i + 1) = 2 * maxRad u i + 1 := by
  have hlen : (augment u).length = 2 * u.length + 1 := augment_length hu
  have hc : 2 * i + 1 < (augment u).length := by omega
  have hpar := maxRad_parity hu (2 * i + 1) hc
  have h2 := maxRad_max ((isRad_odd_iff hu).mp (maxRad_isRad (show i < u.length from hi)))
  have h1 : IsRad u i ((maxRad (augment u) (2 * i + 1) - 1) / 2) := by
    apply (isRad_odd_iff hu).mpr
    have he : 2 * ((maxRad (augment u) (2 * i + 1) - 1) / 2) + 1 =
        maxRad (augment u) (2 * i + 1) := by omega
    rw [he]
    exact maxRad_isRad hc
  have h3 : (maxRad (augment u) (2 * i + 1) - 1) / 2 ≤ maxRad u i := maxRad_max h1
  omega

/-- The augmented maximal radius at an inner even center `2 i + 2`. -/
lemma maxRad_augment_even {u : List Char} (hu : u ≠ []) {i : Nat} (hi : i < u.length) :
    maxRad (augment u) (2 * i + 2) = 2 * maxRad2 u i := by
  have hlen : (augment u).length = 2 * u.length + 1 := augment_length hu
  have hc : 2 * i + 2 < (augment u).length := by omega
  have hpar := maxRad_parity hu (2 * i + 2) hc
  have h2 := maxRad_max ((isRad2_iff hu hi).mp (maxRad2_isRad2 hi))
  have h1 : IsRad2 u i (maxRad (augment u) (2 * i + 2) / 2) := by
    apply (isRad2_iff hu hi).mpr
    have he : 2 * (maxRad (augment u) (2 * i + 2) / 2) =
        maxRad (augment u) (2 * i + 2) := by omega
    rw [he]
    exact maxRad_isRad hc
  have := maxRad2_max h1
  omega

/-- The first augmented center has radius 0. -/
lemma maxRad_augment_zero (u : List Char) : maxRad (augment u) 0 = 0 := by
  have h0 : 0 < (augment u).length := by simp [augment]
  exact Nat.le_zero.mp (maxRad_isRad h0).1

/-- The last augmented center has radius 0. -/
lemma maxRad_augment_last {u : List Char} (hu : u ≠ []) :
    maxRad (augment u) (2 * u.length) = 0 := by
  have hlen : (augment u).length = 2 * u.length + 1 := augment_length hu
  have hc : 2 * u.length < (augment u).length := by omega
  have := (maxRad_isRad hc).2.1
  omega

/-! ### One full expansion at a single center of the quadratic scans -/

/-- Running the expansion loop at an odd center `(i, i)` from an already-feasible
radius `r`: the window is recorded exactly when the full palindrome at `i` beats the
running maximum. -/
lemma eacLoop_odd_run (u : List Char) (i : Nat) (hi : i < u.length) :
    ∀ (d r : Nat) (w : Window), r + d = maxRad u i → IsRad u i r →
      eacLoop u ((i : Int) - (r : Nat)) ((i : Int) + (r : Nat)) w =
        (if 2 * maxRad u i + 1 > w.maxLen
        then ⟨i - maxRad u i, i + maxRad u i, 2 * maxRad u i + 1⟩ else w) := by
  intro d
  induction d with
  | zero =>
    intro r w hrd hr
    have hrR : maxRad u i = r := by omega
    rw [hrR]
    have htn1 : ((i : Int) - (r : Nat)).toNat = i - r := by have := hr.1; omega
    have htn2 : ((i : Int) + (r : Nat)).toNat = i + r := by omega
    have hg : 0 ≤ (i : Int) - (r : Nat) ∧ (i : Int) + (r : Nat) < (u.length : Int) ∧
        u.getD ((i : Int) - (r : Nat)).toNat SEP = u.getD ((i : Int) + (r : Nat)).toNat SEP := by
      refine ⟨by have := hr.1; omega, by have := hr.2.1; omega, ?_⟩
      rw [htn1, htn2]
      cases Nat.eq_zero_or_pos r with
      | inl h0 => subst h0; rw [show i - 0 = i + 0 from by omega]
      | inr hpos => exact hr.2.2 r hpos (le_refl r)
    rw [eacLoop, dif_pos hg]
    have hcl : ((i : Int) + (r : Nat) - ((i : Int) - (r : Nat)) + 1).toNat = 2 * r + 1 := by
      have := hr.1; omega
    rw [hcl, htn1, htn2]
    have e1 : (i : Int) - (r : Nat) - 1 = (i : Int) - ((r + 1 : Nat) : Int) := by
      push_cast; ring
    have e2 : (i : Int) + (r : Nat) + 1 = (i : Int) + ((r + 1 : Nat) : Int) := by
      push_cast; ring
    have hstop : ∀ w' : Window,
        eacLoop u ((i : Int) - ((r + 1 : Nat) : Int)) ((i : Int) + ((r + 1 : Nat) : Int)) w' = w' := by
      intro w'
      rw [eacLoop, dif_neg]
      rintro ⟨g1, g2, g3⟩
      have hb1 : r + 1 ≤ i := by omega
      have hb2 : i + (r + 1) < u.length := by omega
      have htn3 : ((i : Int) - ((r + 1 : Nat) : Int)).toNat = i - (r + 1) := by omega
      have htn4 : ((i : Int) + ((r + 1 : Nat) : Int)).toNat = i + (r + 1) := by omega
      rw [htn3, htn4] at g3
      have hnext : IsRad u i (r + 1) := isRad_succ hr hb1 hb2 g3
      have := maxRad_max hnext
      omega
    by_cases hup : 2 * r + 1 > w.maxLen
    · rw [if_pos hup, if_pos hup, e1, e2, hstop]
    · rw [if_neg hup, if_neg hup, e1, e2, hstop]
  | succ d ih =>
    intro r w hrd hr
    have htn1 : ((i : Int) - (r : Nat)).toNat = i - r := by have := hr.1; omega
    have htn2 : ((i : Int) + (r : Nat)).toNat = i + r := by omega
    have hg : 0 ≤ (i : Int) - (r : Nat) ∧ (i : Int) + (r : Nat) < (u.length : Int) ∧
        u.getD ((i : Int) - (r : Nat)).toNat SEP = u.getD ((i : Int) + (r : Nat)).toNat SEP := by
      refine ⟨by have := hr.1; omega, by have := hr.2.1; omega, ?_⟩
      rw [htn1, htn2]
      cases Nat.eq_zero_or_pos r with
      | inl h0 => subst h0; rw [show i - 0 = i + 0 from by omega]
      | inr hpos => exact hr.2.2 r hpos (le_refl r)
    rw [eacLoop, dif_pos hg]
    have hcl : ((i : Int) + (r : Nat) - ((i : Int) - (r : Nat)) + 1).toNat = 2 * r + 1 := by
      have := hr.1; omega
    rw [hcl, htn1, htn2]
    have e1 : (i : Int) - (r : Nat) - 1 = (i : Int) - ((r + 1 : Nat) : Int) := by
      push_cast; ring
    have e2 : (i : Int) + (r : Nat) + 1 = (i : Int) + ((r + 1 : Nat) : Int) := by
      push_cast; ring
    have hnext : IsRad u i (r + 1) := isRad_mono (maxRad_isRad hi) (by omega)
    by_cases hup : 2 * r + 1 > w.maxLen
    · rw [if_pos hup, e1, e2, ih (r + 1) ⟨i - r, i + r, 2 * r + 1⟩ (by omega) hnext]
      dsimp only
      rw [if_pos (show 2 * maxRad u i + 1 > 2 * r + 1 by omega), if_pos (by omega)]
    · rw [if_neg hup, e1, e2, ih (r + 1) w (by omega) hnext]

/-- Running the expansion loop at an even center `(i, i + 1)` from `t` already-matched
pairs: the window is recorded exactly when further pairs exist and the full even
palindrome beats the running maximum. -/
lemma eacLoop_even_run (u : List Char) (i : Nat) (hi : i < u.length) :
    ∀ (d t : Nat) (w : Window), t + d = maxRad2 u i → IsRad2 u i t →
      eacLoop u ((i : Int) - (t : Nat)) ((i : Int) + 1 + (t : Nat)) w =
        (if t < maxRad2 u i ∧ 2 * maxRad2 u i > w.maxLen
        then ⟨i + 1 - maxRad2 u i, i + maxRad2 u i, 2 * maxRad2 u i⟩ else w) := by
  intro d
  induction d with
  | zero =>
    intro t w hrd ht
    have htR : t = maxRad2 u i := by omega
    rw [eacLoop, dif_neg, if_neg (by omega)]
    rintro ⟨g1, g2, g3⟩
    have hb2 : i + (t + 1) < u.length := by omega
    have htn3 : ((i : Int) - (t : Nat)).toNat = i - t := by omega
    have htn4 : ((i : Int) + 1 + (t : Nat)).toNat = i + (t + 1) := by omega
    rw [htn3, htn4] at g3
    have hnext : IsRad2 u i (t + 1) := isRad2_succ ht (by omega) hb2 g3
    have := maxRad2_max hnext
    omega
  | succ d ih =>
    intro t w hrd ht
    have hnext : IsRad2 u i (t + 1) := isRad2_mono (maxRad2_isRad2 hi) (by omega)
    have hb1 : t ≤ i := by have := hnext.1; omega
    have htn1 : ((i : Int) - (t : Nat)).toNat = i - t := by omega
    have htn2 : ((i : Int) + 1 + (t : Nat)).toNat = i + (t + 1) := by omega
    have hg : 0 ≤ (i : Int) - (t : Nat) ∧ (i : Int) + 1 + (t : Nat) < (u.length : Int) ∧
        u.getD ((i : Int) - (t : Nat)).toNat SEP = u.getD ((i : Int) + 1 + (t : Nat)).toNat SEP := by
      refine ⟨by omega, by have := hnext.2.1; omega, ?_⟩
      rw [htn1, htn2]
      have hch := hnext.2.2 (t + 1) (by omega) (le_refl _)
      rw [show i + 1 - (t + 1) = i - t from by omega] at hch
      exact hch
    rw [eacLoop, dif_pos hg]
    have hcl : ((i : Int) + 1 + (t : Nat) - ((i : Int) - (t : Nat)) + 1).toNat = 2 * t + 2 := by
      omega
    rw [hcl, htn1, htn2]
    have e1 : (i : Int) - (t : Nat) - 1 = (i : Int) - ((t + 1 : Nat) : Int) := by
      push_cast; ring
    have e2 : (i : Int) + 1 + (t : Nat) + 1 = (i : Int) + 1 + ((t + 1 : Nat) : Int) := by
      push_cast; ring
    by_cases hup : 2 * t + 2 > w.maxLen
    · rw [if_pos hup, e1, e2, ih (t + 1) ⟨i - t, i + (t + 1), 2 * t + 2⟩ (by omega) hnext]
      dsimp only
      by_cases hlast : t + 1 < maxRad2 u i
      · rw [if_pos ⟨hlast, show 2 * maxRad2 u i > 2 * t + 2 by omega⟩,
          if_pos ⟨by omega, by omega⟩]
      · have hteq : t + 1 = maxRad2 u i := by omega
        rw [if_neg (by rintro ⟨ha, _⟩; omega), if_pos ⟨by omega, by omega⟩]
        have es : i - t = i + 1 - maxRad2 u i := by omega
        have ee : i + (t + 1) = i + maxRad2 u i := by omega
        rw [es, ee, show 2 * t + 2 = 2 * maxRad2 u i from by omega]
    · rw [if_neg hup, e1, e2, ih (t + 1) w (by omega) hnext]
      by_cases hcond : t + 1 < maxRad2 u i ∧ 2 * maxRad2 u i > w.maxLen
      · rw [if_pos hcond, if_pos ⟨by omega, hcond.2⟩]
      · rw [if_neg hcond, if_neg]
        rintro ⟨ha, hb⟩
        rcases Nat.lt_or_ge (t + 1) (maxRad2 u i) with hx | hx
        · exact hcond ⟨hx, hb⟩
        · omega

/-! ### The full odd and even passes -/

/-- The odd pass over centers `[i, len)`: either no center beats the incoming window,
or the result is the best window of the first center achieving the maximal radius. -/
lemma eacOdd_spec (u : List Char) : ∀ (k i : Nat) (w : Window), u.length - i ≤ k →
    (eacOdd u i w = w ∧ ∀ j, i ≤ j → j < u.length → 2 * maxRad u j + 1 ≤ w.maxLen) ∨
    (∃ jw, i ≤ jw ∧ jw < u.length ∧
      eacOdd u i w = ⟨jw - maxRad u jw, jw + maxRad u jw, 2 * maxRad u jw + 1⟩ ∧
      w.maxLen < 2 * maxRad u jw + 1 ∧
      (∀ j, i ≤ j → j < u.length → maxRad u j ≤ maxRad u jw) ∧
      (∀ j, i ≤ j → j < jw → maxRad u j < maxRad u jw)) := by
  intro k
  induction k with
  | zero =>
    intro i w hk
    left
    have hge : ¬ i < u.length := by omega
    rw [eacOdd, if_neg hge]
    exact ⟨rfl, fun j hj1 hj2 => absurd hj2 (by omega)⟩
  | succ k ih =>
    intro i w hk
    by_cases hi : i < u.length
    · rw [eacOdd, if_pos hi]
      have hrun := eacLoop_odd_run u i hi (maxRad u i) 0 w (by omega) (isRad_zero hi)
      have e1 : (i : Int) - ((0 : Nat) : Int) = (i : Int) := by push_cast; ring
      have e2 : (i : Int) + ((0 : Nat) : Int) = (i : Int) := by push_cast; ring
      rw [e1, e2] at hrun
      rw [hrun]
      by_cases hup : 2 * maxRad u i + 1 > w.maxLen
      · rw [if_pos hup]
        rcases ih (i + 1) ⟨i - maxRad u i, i + maxRad u i, 2 * maxRad u i + 1⟩ (by omega)
          with ⟨heq, hbound⟩ | ⟨jw, hjw1, hjw2, heq, hlt, hmax, hfirst⟩
        · dsimp only at hbound
          right
          refine ⟨i, le_refl i, hi, heq, hup, ?_, fun j hj1 hj2 => absurd hj1 (by omega)⟩
          intro j hj1 hj2
          rcases Nat.lt_or_ge j (i + 1) with hj' | hj'
          · have hje : j = i := by omega
            subst hje
            exact le_refl _
          · have := hbound j hj' hj2
            omega
        · dsimp only at hlt
          right
          refine ⟨jw, by omega, hjw2, heq, by omega, ?_, ?_⟩
          · intro j hj1 hj2
            rcases Nat.lt_or_ge j (i + 1) with hj' | hj'
            · have hje : j = i := by omega
              subst hje
              omega
            · exact hmax j hj' hj2
          · intro j hj1 hj2
            rcases Nat.lt_or_ge j (i + 1) with hj' | hj'
            · have hje : j = i := by omega
              subst hje
              omega
            · exact hfirst j hj' hj2
      · rw [if_neg hup]
        rcases ih (i + 1) w (by omega)
          with ⟨heq, hbound⟩ | ⟨jw, hjw1, hjw2, heq, hlt, hmax, hfirst⟩
        · left
          refine ⟨heq, ?_⟩
          intro j hj1 hj2
          rcases Nat.lt_or_ge j (i + 1) with hj' | hj'
          · have hje : j = i := by omega
            subst hje
            omega
          · exact hbound j hj' hj2
        · right
          refine ⟨jw, by omega, hjw2, heq, hlt, ?_, ?_⟩
          · intro j hj1 hj2
            rcases Nat.lt_or_ge j (i + 1) with hj' | hj'
            · have hje : j = i := by omega
              subst hje
              omega
            · exact hmax j hj' hj2
          · intro j hj1 hj2
            rcases Nat.lt_or_ge j (i + 1) with hj' | hj'
            · have hje : j = i := by omega
              subst hje
              omega
            · exact hfirst j hj' hj2
    · left
      rw [eacOdd, if_neg hi]
      exact ⟨rfl, fun j hj1 hj2 => absurd hj2 (by omega)⟩

/-- The even pass over centers `[i, len - 1)`: either no center beats the incoming
window, or the result is the best even window of the first center achieving the
maximal pair count. -/
lemma eacEven_spec (u : List Char) : ∀ (k i : Nat) (w : Window), u.length - 1 - i ≤ k →
    (eacEven u i w = w ∧ ∀ j, i ≤ j → j < u.length - 1 → 2 * maxRad2 u j ≤ w.maxLen) ∨
    (∃ jw, i ≤ jw ∧ jw < u.length - 1 ∧
      eacEven u i w = ⟨jw + 1 - maxRad2 u jw, jw + maxRad2 u jw, 2 * maxRad2 u jw⟩ ∧
      w.maxLen < 2 * maxRad2 u jw ∧
      (∀ j, i ≤ j → j < u.length - 1 → maxRad2 u j ≤ maxRad2 u jw) ∧
      (∀ j, i ≤ j → j < jw → maxRad2 u j < maxRad2 u jw)) := by
  intro k
  induction k with
  | zero =>
    intro i w hk
    left
    have hge : ¬ i < u.length - 1 := by omega
    rw [eacEven, if_neg hge]
    exact ⟨rfl, fun j hj1 hj2 => absurd hj2 (by omega)⟩
  | succ k ih =>
    intro i w hk
    by_cases hi : i < u.length - 1
    · rw [eacEven, if_pos hi]
      have hiu : i < u.length := by omega
      have hrun := eacLoop_even_run u i hiu (maxRad2 u i) 0 w (by omega) (isRad2_zero hiu)
      have e1 : (i : Int) - ((0 : Nat) : Int) = (i : Int) := by push_cast; ring
      have e2 : (i : Int) + 1 + ((0 : Nat) : Int) = (i : Int) + 1 := by push_cast; ring
      rw [e1, e2] at hrun
      rw [hrun]
      by_cases hup : 2 * maxRad2 u i > w.maxLen
      · rw [if_pos ⟨by omega, hup⟩]
        rcases ih (i + 1) ⟨i + 1 - maxRad2 u i, i + maxRad2 u i, 2 * maxRad2 u i⟩ (by omega)
          with ⟨heq, hbound⟩ | ⟨jw, hjw1, hjw2, heq, hlt, hmax, hfirst⟩
        · dsimp only at hbound
          right
          refine ⟨i, le_refl i, hi, heq, hup, ?_, fun j hj1 hj2 => absurd hj1 (by omega)⟩
          intro j hj1 hj2
          rcases Nat.lt_or_ge j (i + 1) with hj' | hj'
          · have hje : j = i := by omega
            subst hje
            exact le_refl _
          · have := hbound j hj' hj2
            omega
        · dsimp only at hlt
          right
          refine ⟨jw, by omega, hjw2, heq, by omega, ?_, ?_⟩
          · intro j hj1 hj2
            rcases Nat.lt_or_ge j (i + 1) with hj' | hj'
            · have hje : j = i := by omega
              subst hje
              omega
            · exact hmax j hj' hj2
          · intro j hj1 hj2
            rcases Nat.lt_or_ge j (i + 1) with hj' | hj'
            · have hje : j = i := by omega
              subst hje
              omega
            · exact hfirst j hj' hj2
      · rw [if_neg (fun hc => hup hc.2)]
        rcases ih (i + 1) w (by omega)
          with ⟨heq, hbound⟩ | ⟨jw, hjw1, hjw2, heq, hlt, hmax, hfirst⟩
        · left
          refine ⟨heq, ?_⟩
          intro j hj1 hj2
          rcases Nat.lt_or_ge j (i + 1) with hj' | hj'
          · have hje : j = i := by omega
            subst hje
            omega
          · exact hbound j hj' hj2
        · right
          refine ⟨jw, by omega, hjw2, heq, hlt, ?_, ?_⟩
          · intro j hj1 hj2
            rcases Nat.lt_or_ge j (i + 1) with hj' | hj'
            · have hje : j = i := by omega
              subst hje
              omega
            · exact hmax j hj' hj2
          · intro j hj1 hj2
            rcases Nat.lt_or_ge j (i + 1) with hj' | hj'
            · have hje : j = i := by omega
              subst hje
              omega
            · exact hfirst j hj' hj2
    · left
      rw [eacEven, if_neg hi]
      exact ⟨rfl, fun j hj1 hj2 => absurd hj2 (by omega)⟩

/-- Floor division of twice an integer. -/
lemma fdiv_two_mul (x : Int) : (2 * x).fdiv 2 = x := by
  rw [Int.fdiv_eq_ediv _ (by norm_num)]
  omega

/-- Floor division of twice an integer plus one. -/
lemma fdiv_two_mul_add_one (x : Int) : (2 * x + 1).fdiv 2 = x := by
  rw [Int.fdiv_eq_ediv _ (by norm_num)]
  omega

/-! ### The selected center -/

/-- `(mr, mc)` is the first center of maximal radius in the augmented string. -/
def BestCenter (sp : List Char) (mr mc : Nat) : Prop :=
  mc < sp.length ∧ maxRad sp mc = mr ∧
  (∀ j, j < sp.length → maxRad sp j ≤ mr) ∧
  (∀ j, j < mc → maxRad sp j < mr)

lemma bestCenter_unique {sp : List Char} {mr mc mr' mc' : Nat}
    (h : BestCenter sp mr mc) (h' : BestCenter sp mr' mc') : mr = mr' ∧ mc = mc' := by
  obtain ⟨h1, h2, h3, h4⟩ := h
  obtain ⟨h1', h2', h3', h4'⟩ := h'
  have hval : mr = mr' := le_antisymm (h2 ▸ h3' mc h1) (h2' ▸ h3 mc' h1')
  subst hval
  refine ⟨rfl, ?_⟩
  rcases Nat.lt_trichotomy mc mc' with hcc | hcc | hcc
  · have := h4' mc hcc
    omega
  · exact hcc
  · have := h4 mc' hcc
    omega

/-- For a nonempty input the augmented center 1 has radius at least 1. -/
lemma one_le_maxRad_one {s : List Char} (hs : s ≠ []) :
    1 ≤ maxRad (augment s) 1 := by
  have hs1 : 0 < s.length := List.length_pos.mpr hs
  apply maxRad_max
  refine ⟨le_refl 1, by rw [augment_length hs]; omega, ?_⟩
  intro k hk1 hk2
  have hke : k = 1 := by omega
  subst hke
  rw [show (1 : Nat) - 1 = 2 * 0 from rfl, show (1 : Nat) + 1 = 2 * 1 from rfl,
    augment_getD_even s 0 (by omega), augment_getD_even s 1 (by omega)]

/-- There are no even pairs around the last gap. -/
lemma maxRad2_last {u : List Char} (hu : u ≠ []) : maxRad2 u (u.length - 1) = 0 := by
  have hlen : 0 < u.length := List.length_pos.mpr hu
  have h := (maxRad2_isRad2 (show u.length - 1 < u.length from by omega)).2.1
  omega

/-- The max scan of an array of true radii selects the first center of maximal
radius. -/
lemma maxScan_bestCenter {s : List Char} (hs : s ≠ []) {radii : List Nat}
    (hlen : radii.length = (augment s).length)
    (hval : ∀ j, j < (augment s).length → radii.getD j 0 = maxRad (augment s) j) :
    BestCenter (augment s) (maxScan radii).1 (maxScan radii).2 := by
  have hlen2 : (augment s).length = 2 * s.length + 1 := augment_length hs
  have hs1 : 0 < s.length := List.length_pos.mpr hs
  rcases maxScanAux_spec radii 0 0 0 with ⟨heq, hbound⟩ | ⟨jw, hjw, heq, hlt, hmax, hfirst⟩
  · exfalso
    have h1 := hbound 1 (by omega)
    rw [hval 1 (by omega)] at h1
    have := one_le_maxRad_one hs
    omega
  · have hjs : jw < (augment s).length := by omega
    have hmq : maxScan radii = (radii.getD jw 0, jw) := by
      rw [maxScan, heq, Nat.zero_add]
    rw [hmq]
    show BestCenter (augment s) (radii.getD jw 0) jw
    refine ⟨hjs, (hval jw hjs).symm, ?_, ?_⟩
    · intro j hj
      have := hmax j (by omega)
      rw [hval j hj] at this
      exact this
    · intro j hj
      have := hfirst j hj
      rw [hval j (by omega)] at this
      exact this

/-- Empty-input results, shared by several claims. -/
lemma pra_empty : palindromic_radii_array [] = [] := by
  simp [palindromic_radii_array, praLoop, expandLoop, augment, pyJoin, maxScan,
    maxScanAux, radiiToSlice, pySlice, sliceIdx, SEP]

lemma manacher_empty : manachers_algorithm [] = some [] := by
  simp [manachers_algorithm, outerLoop, fastForward, expandLoop, augment, pyJoin,
    maxScan, maxScanAux, radiiToSlice, pySlice, sliceIdx, SEP]

/-! ### The four entry points produce the same slice -/

/-- `palindromic_radii_array` slices at the first maximal center. -/
lemma pra_slice {s : List Char} (hs : s ≠ []) {mr mc : Nat}
    (hbc : BestCenter (augment s) mr mc) :
    palindromic_radii_array s = radiiToSlice s mr mc := by
  obtain ⟨hplen, hpinv⟩ := praLoop_spec (augment s) (List.replicate (augment s).length 0) 0
    (by simp) (fun j hj => absurd hj (by omega))
  have hval : ∀ j, j < (augment s).length →
      (praLoop (augment s) (List.replicate (augment s).length 0) 0).getD j 0 =
        maxRad (augment s) j :=
    fun j hj => maxRadAt_eq hj (hpinv j hj)
  have hbc2 := maxScan_bestCenter hs hplen hval
  obtain ⟨e1, e2⟩ := bestCenter_unique hbc hbc2
  simp only [palindromic_radii_array]
  rw [← e1, ← e2]

/-- `manachers_algorithm` slices at the first maximal center. -/
lemma manacher_slice {s : List Char} (hs : s ≠ []) {mr mc : Nat}
    (hbc : BestCenter (augment s) mr mc) :
    manachers_algorithm s = some (radiiToSlice s mr mc) := by
  obtain ⟨q, hq, hlen, hinv, _⟩ := manacher_pass_spec s
  have hval : ∀ j, j < (augment s).length → q.1.getD j 0 = maxRad (augment s) j :=
    fun j hj => maxRadAt_eq hj (hinv j hj)
  have hbc2 := maxScan_bestCenter hs hlen hval
  obtain ⟨e1, e2⟩ := bestCenter_unique hbc hbc2
  simp only [manachers_algorithm, hq]
  rw [← e1, ← e2]

/-- `augmentation_with_separator` slices at the first maximal center. -/
lemma aws_slice {s : List Char} (hs : s ≠ []) {mr mc : Nat}
    (hbc : BestCenter (augment s) mr mc) :
    augmentation_with_separator s = radiiToSlice s mr mc := by
  have hlen2 : (augment s).length = 2 * s.length + 1 := augment_length hs
  have hs1 : 0 < s.length := List.length_pos.mpr hs
  rcases eacOdd_spec (augment s) (augment s).length 0 ⟨0, 0, 0⟩ (by omega)
    with ⟨heq, hbound⟩ | ⟨jw, hjw0, hjw, heq, hlt, hmax, hfirst⟩
  · exfalso
    have h1 := hbound 1 (by omega) (by omega)
    dsimp only at h1
    have := one_le_maxRad_one hs
    omega
  · have hbc2 : BestCenter (augment s) (maxRad (augment s) jw) jw :=
      ⟨hjw, rfl, fun j hj => hmax j (by omega) hj, fun j hj => hfirst j (by omega) hj⟩
    obtain ⟨e1, e2⟩ := bestCenter_unique hbc hbc2
    rw [augmentation_with_separator, if_neg hs]
    simp only [heq]
    rw [e1, e2]
    have hRlei : maxRad (augment s) jw ≤ jw := (maxRad_isRad hjw).1
    rw [radiiToSlice]
    have hc1 : ((jw - maxRad (augment s) jw : Nat) : Int) =
        (jw : Int) - (maxRad (augment s) jw : Int) := by omega
    have hc2 : ((jw + maxRad (augment s) jw : Nat) : Int) - 1 =
        (jw : Int) + (maxRad (augment s) jw : Int) - 1 := by omega
    rw [hc1, hc2]

/-- `expansion_around_centers` slices at the first maximal center. -/
lemma eac_slice {s : List Char} (hs : s ≠ []) {mr mc : Nat}
    (hbc : BestCenter (augment s) mr mc) :
    expansion_around_centers s = radiiToSlice s mr mc := by
  have hlen2 : (augment s).length = 2 * s.length + 1 := augment_length hs
  have hs1 : 0 < s.length := List.length_pos.mpr hs
  -- decompose any augmented center
  have hsplit : ∀ c, c < (augment s).length →
      c = 0 ∨ (∃ j, j < s.length ∧ c = 2 * j + 1) ∨
      (∃ j, j < s.length ∧ c = 2 * j + 2) := by
    intro c hc
    rcases Nat.even_or_odd c with hpar | hpar
    · rcases Nat.eq_zero_or_pos c with h0 | hpos
      · exact Or.inl h0
      · right; right
        have hpar' := Nat.even_iff.mp hpar
        exact ⟨c / 2 - 1, by omega, by omega⟩
    · right; left
      have hpar' := Nat.odd_iff.mp hpar
      exact ⟨c / 2, by omega, by omega⟩
  -- the odd pass
  rcases eacOdd_spec s s.length 0 ⟨0, 0, 0⟩ (by omega)
    with ⟨heqO, hboundO⟩ | ⟨io, hio0, hio, heqO, hltO, hmaxO, hfirstO⟩
  · exfalso
    have h1 := hboundO 0 (by omega) (by omega)
    dsimp only at h1
    omega
  · -- the even pass, started from the odd winner
    rcases eacEven_spec s (s.length - 1) 0 ⟨io - maxRad s io, io + maxRad s io,
        2 * maxRad s io + 1⟩ (by omega)
      with ⟨heqE, hboundE⟩ | ⟨ie, hie0, hie, heqE, hltE, hmaxE, hfirstE⟩
    · -- no even palindrome beats the odd winner: the odd winner is the answer
      dsimp only at hboundE
      have hbc2 : BestCenter (augment s) (2 * maxRad s io + 1) (2 * io + 1) := by
        refine ⟨by omega, maxRad_augment_odd hs hio, ?_, ?_⟩
        · intro c hc
          rcases hsplit c hc with h0 | ⟨j, hj, hcj⟩ | ⟨j, hj, hcj⟩
          · subst h0
            rw [maxRad_augment_zero]
            omega
          · subst hcj
            rw [maxRad_augment_odd hs hj]
            have := hmaxO j (by omega) hj
            omega
          · subst hcj
            rw [maxRad_augment_even hs hj]
            rcases Nat.lt_or_ge j (s.length - 1) with hj' | hj'
            · have := hboundE j (by omega) hj'
              omega
            · have hje : j = s.length - 1 := by omega
              subst hje
              rw [maxRad2_last hs]
              omega
        · intro c hc
          rcases hsplit c (by omega) with h0 | ⟨j, hj, hcj⟩ | ⟨j, hj, hcj⟩
          · subst h0
            rw [maxRad_augment_zero]
            omega
          · subst hcj
            rw [maxRad_augment_odd hs hj]
            have := hfirstO j (by omega) (by omega)
            omega
          · subst hcj
            rw [maxRad_augment_even hs hj]
            rcases Nat.lt_or_ge j (s.length - 1) with hj' | hj'
            · have := hboundE j (by omega) hj'
              omega
            · have hje : j = s.length - 1 := by omega
              subst hje
              rw [maxRad2_last hs]
              omega
      obtain ⟨e1, e2⟩ := bestCenter_unique hbc hbc2
      rw [expansion_around_centers, if_neg hs]
      simp only [heqO, heqE]
      rw [e1, e2]
      have hRlei : maxRad s io ≤ io := (maxRad_isRad hio).1
      rw [radiiToSlice]
      have hc1 : ((2 * io + 1 : Nat) : Int) - ((2 * maxRad s io + 1 : Nat) : Int) =
          2 * ((io - maxRad s io : Nat) : Int) := by omega
      have hc2 : ((2 * io + 1 : Nat) : Int) + ((2 * maxRad s io + 1 : Nat) : Int) - 1 =
          2 * ((io + maxRad s io : Nat) : Int) + 1 := by omega
      rw [hc1, hc2, fdiv_two_mul, fdiv_two_mul_add_one]
    · -- an even palindrome wins
      dsimp only at hltE
      have hieS : ie < s.length := by omega
      have hbc2 : BestCenter (augment s) (2 * maxRad2 s ie) (2 * ie + 2) := by
        refine ⟨by omega, maxRad_augment_even hs hieS, ?_, ?_⟩
        · intro c hc
          rcases hsplit c hc with h0 | ⟨j, hj, hcj⟩ | ⟨j, hj, hcj⟩
          · subst h0
            rw [maxRad_augment_zero]
            omega
          · subst hcj
            rw [maxRad_augment_odd hs hj]
            have := hmaxO j (by omega) hj
            omega
          · subst hcj
            rw [maxRad_augment_even hs hj]
            rcases Nat.lt_or_ge j (s.length - 1) with hj' | hj'
            · have := hmaxE j (by omega) hj'
              omega
            · have hje : j = s.length - 1 := by omega
              subst hje
              rw [maxRad2_last hs]
              omega
        · intro c hc
          rcases hsplit c (by omega) with h0 | ⟨j, hj, hcj⟩ | ⟨j, hj, hcj⟩
          · subst h0
            rw [maxRad_augment_zero]
            omega
          · subst hcj
            rw [maxRad_augment_odd hs hj]
            have := hmaxO j (by omega) hj
            omega
          · subst hcj
            rw [maxRad_augment_even hs hj]
            have := hfirstE j (by omega) (by omega)
            omega
      obtain ⟨e1, e2⟩ := bestCenter_unique hbc hbc2
      rw [expansion_around_centers, if_neg hs]
      simp only [heqO, heqE]
      rw [e1, e2]
      have hElei : maxRad2 s ie ≤ ie + 1 := (maxRad2_isRad2 hieS).1
      rw [radiiToSlice]
      have hc1 : ((2 * ie + 2 : Nat) : Int) - ((2 * maxRad2 s ie : Nat) : Int) =
          2 * ((ie + 1 - maxRad2 s ie : Nat) : Int) := by omega
      have hc2 : ((2 * ie + 2 : Nat) : Int) + ((2 * maxRad2 s ie : Nat) : Int) - 1 =
          2 * ((ie + maxRad2 s ie : Nat) : Int) + 1 := by omega
      rw [hc1, hc2, fdiv_two_mul, fdiv_two_mul_add_one]

/-- A slice with nonnegative in-range endpoints is a `subAt` window. -/
lemma pySlice_natCast (s : List Char) (a b : Nat) (ha : a ≤ s.length) :
    pySlice s (a : Int) (b : Int) = subAt s a (b - a) := by
  unfold pySlice sliceIdx subAt
  rw [if_neg (by omega : ¬ ((a : Int) < 0)), if_neg (by omega : ¬ ((b : Int) < 0))]
  have hta : ((a : Nat) : Int).toNat = a := by omega
  have htb : ((b : Nat) : Int).toNat = b := by omega
  rw [hta, htb, Nat.min_eq_left ha]
  rcases Nat.lt_or_ge b s.length with hb | hb
  · rw [Nat.min_eq_left (by omega)]
  · rw [Nat.min_eq_right (by omega)]
    have h1 : (s.drop a).take (s.length - a) = s.drop a := by
      apply List.take_of_length_le
      simp
    rw [h1]
    have h2 : (s.drop a).take (b - a) = s.drop a := by
      apply List.take_of_length_le
      simp
      omega
    rw [h2]

/-- The shared final slice, at a best center, is the palindromic window it encodes. -/
lemma radiiToSlice_eq_subAt {s : List Char} (hs : s ≠ []) {mr mc : Nat}
    (hbc : BestCenter (augment s) mr mc) :
    radiiToSlice s mr mc = subAt s ((mc - mr) / 2) mr ∧
    (mc - mr) / 2 + mr ≤ s.length ∧ 1 ≤ mr ∧ mc = 2 * ((mc - mr) / 2) + mr := by
  have hlen2 : (augment s).length = 2 * s.length + 1 := augment_length hs
  have hs1 : 0 < s.length := List.length_pos.mpr hs
  have hmr1 : 1 ≤ mr := le_trans (one_le_maxRad_one hs) (hbc.2.2.1 1 (by omega))
  have hrad : IsRad (augment s) mc mr := by
    have := maxRad_isRad hbc.1
    rwa [hbc.2.1] at this
  have hmc : mr ≤ mc := hrad.1
  have hbnd : mc + mr ≤ 2 * s.length := by have := hrad.2.1; omega
  have hpar : (mc + mr) % 2 = 0 := by
    have := maxRad_parity hs mc hbc.1
    rwa [hbc.2.1] at this
  refine ⟨?_, by omega, hmr1, by omega⟩
  rw [radiiToSlice]
  have hc1 : (mc : Int) - (mr : Int) = 2 * (((mc - mr) / 2 : Nat) : Int) := by omega
  have hc2 : (mc : Int) + (mr : Int) - 1 = 2 * (((mc + mr) / 2 - 1 : Nat) : Int) + 1 := by
    omega
  rw [hc1, hc2, fdiv_two_mul, fdiv_two_mul_add_one]
  have hc3 : (((mc + mr) / 2 - 1 : Nat) : Int) + 1 = (((mc + mr) / 2 : Nat) : Int) := by
    omega
  rw [hc3, pySlice_natCast s _ _ (by omega)]
  have hc4 : (mc + mr) / 2 - (mc - mr) / 2 = mr := by omega
  rw [hc4]

/-- Master characterization for a nonempty input: all four entry points return the
same window `subAt s i L`, which is the leftmost longest palindromic substring. -/
lemma master (s : List Char) (hs : s ≠ []) :
    ∃ (i L : Nat),
      manachers_algorithm s = some (subAt s i L) ∧
      expansion_around_centers s = subAt s i L ∧
      augmentation_with_separator s = subAt s i L ∧
      palindromic_radii_array s = subAt s i L ∧
      i + L ≤ s.length ∧ 1 ≤ L ∧
      IsPal (subAt s i L) ∧
      (∀ i' m, i' + m ≤ s.length → L < m → ¬ IsPal (subAt s i' m)) ∧
      (∀ i', i' < i → i' + L ≤ s.length → ¬ IsPal (subAt s i' L)) := by
  have hlen2 : (augment s).length = 2 * s.length + 1 := augment_length hs
  -- obtain the selected center from the naive radii array
  obtain ⟨hplen, hpinv⟩ := praLoop_spec (augment s) (List.replicate (augment s).length 0) 0
    (by simp) (fun j hj => absurd hj (by omega))
  have hval : ∀ j, j < (augment s).length →
      (praLoop (augment s) (List.replicate (augment s).length 0) 0).getD j 0 =
        maxRad (augment s) j :=
    fun j hj => maxRadAt_eq hj (hpinv j hj)
  have hbc := maxScan_bestCenter hs hplen hval
  set mr := (maxScan (praLoop (augment s) (List.replicate (augment s).length 0) 0)).1
  set mc := (maxScan (praLoop (augment s) (List.replicate (augment s).length 0) 0)).2
  obtain ⟨hsl, hile, hmr1, hmcdec⟩ := radiiToSlice_eq_subAt hs hbc
  refine ⟨(mc - mr) / 2, mr, ?_, ?_, ?_, ?_, hile, hmr1, ?_, ?_, ?_⟩
  · rw [manacher_slice hs hbc, hsl]
  · rw [eac_slice hs hbc, hsl]
  · rw [aws_slice hs hbc, hsl]
  · rw [pra_slice hs hbc, hsl]
  · -- the returned window is a palindrome
    have hrad : IsRad (augment s) mc mr := by
      have := maxRad_isRad hbc.1
      rwa [hbc.2.1] at this
    rw [hmcdec] at hrad
    have hp := (isRad_augment_iff_palAt hs hile hmr1).mp hrad
    exact (palAt_iff_isPal hile).mp hp
  · -- nothing longer is a palindrome
    intro i' m him hm hpal
    have hm1 : 1 ≤ m := by omega
    have hp := (palAt_iff_isPal him).mpr hpal
    have hrad := (isRad_augment_iff_palAt hs him hm1).mpr hp
    have hle := maxRad_max hrad
    have := hbc.2.2.1 (2 * i' + m) (by omega)
    omega
  · -- no earlier occurrence of the maximal length
    intro i' hi' him hpal
    have hp := (palAt_iff_isPal him).mpr hpal
    have hrad := (isRad_augment_iff_palAt hs him hmr1).mpr hp
    have hle := maxRad_max hrad
    have hlt := hbc.2.2.2 (2 * i' + mr) (by omega)
    omega

/-! ### Claim theorems -/

/-- C3: after the single pass of `manachers_algorithm` completes, every augmented
position `c` holds in `palindrome_radii` the maximum `r ≥ 0` such that the augmented
symbols at distance `k` agree for all `1 ≤ k ≤ r` with both indices in bounds; in
particular `radii[c] ≤ min c (len - 1 - c)`. -/
theorem C3_radii_maximal (s : List Char) (q : List Nat × List (Nat × Nat × Nat))
    (hq : outerLoop (augment s) (List.replicate (augment s).length 0) 0 0 = some q)
    (c : Nat) (hc : c < (augment s).length) :
    IsRad (augment s) c (q.1.getD c 0) ∧
    (∀ r, IsRad (augment s) c r → r ≤ q.1.getD c 0) ∧
    q.1.getD c 0 ≤ min c ((augment s).length - 1 - c) := by
  obtain ⟨q0, hq0, hlen, hinv, htr⟩ := manacher_pass_spec s
  have hqe : q0 = q := Option.some_inj.mp (hq0.symm.trans hq)
  subst hqe
  have h := hinv c hc
  refine ⟨h.1, h.2, ?_⟩
  have h1 := h.1.1
  have h2 := h.1.2.1
  omega

/-- Witness for C3 at the concrete input "a". -/
theorem C3_radii_maximal_witness :
    IsRad (augment ['a']) 1 (([0, 1, 0] : List Nat).getD 1 0) ∧
    (∀ r, IsRad (augment ['a']) 1 r → r ≤ ([0, 1, 0] : List Nat).getD 1 0) ∧
    ([0, 1, 0] : List Nat).getD 1 0 ≤ min 1 ((augment ['a']).length - 1 - 1) :=
  C3_radii_maximal ['a'] ([0, 1, 0], [])
    (by simp [outerLoop, fastForward, expandLoop, augment, pyJoin, SEP]) 1
    (by simp [augment, pyJoin])

/-- C5: the loops of `manachers_algorithm` terminate on every finite input: the pass
reaches the terminal state (the embedded pass is total, returning `some`), and the
fast-forward loop — entered at `center + 1` after each outer iteration — always exits
at a strictly larger `center`, so the outer cursor strictly increases. -/
theorem C5_termination :
    (∀ s : List Char,
      ∃ q, outerLoop (augment s) (List.replicate (augment s).length 0) 0 0 = some q) ∧
    (∀ (oc orr : Nat) (radii : List Nat) (center : Nat) (t : FFOut),
      fastForward oc orr radii (center + 1) = some t → center < t.center) := by
  constructor
  · intro s
    obtain ⟨q, hq, _⟩ := manacher_pass_spec s
    exact ⟨q, hq⟩
  · intro oc orr radii center t h
    have := fastForward_center_le (oc + orr + 2) oc orr radii (center + 1) t (by omega) h
    omega

/-- Witness for C5 at a concrete fast-forward call. -/
theorem C5_termination_witness : 0 < FFOut.center ⟨[0, 0], 1, 0, []⟩ :=
  C5_termination.2 0 0 [0, 0] 0 ⟨[0, 0], 1, 0, []⟩ (by simp [fastForward])

/-- C6: every index used to read `s_prime` or to read or write `palindrome_radii`
during the expansion and mirrored fast-forward steps stays within bounds: the fallible
embedding (which fails on any subscript outside `[0, len)`) never returns the error. -/
theorem C6_no_out_of_bounds (s : List Char) :
    ∃ out, manachers_algorithm s = some out := by
  obtain ⟨q, hq, _⟩ := manacher_pass_spec s
  exact ⟨radiiToSlice s (maxScan q.1).1 (maxScan q.1).2,
    by simp [manachers_algorithm, hq]⟩

/-- C7 counterexample: for the empty input the augmented sequence has length 2
(it is `"||"`), not `2 * 0 + 1 = 1`. -/
theorem C7_counterexample : (augment []).length ≠ 2 * ([] : List Char).length + 1 := by
  decide

/-- C7 amended: for every nonempty input of length `n` the augmented sequence has
length `2 n + 1` (odd); for the empty input, however, it is the two-separator string
`"||"` of (even) length 2, not the single separator. -/
theorem C7_amended :
    (∀ s : List Char, s ≠ [] → (augment s).length = 2 * s.length + 1) ∧
    augment [] = [SEP, SEP] :=
  ⟨fun _ h => augment_length h, rfl⟩

/-- Witness for C7 (amended) at the concrete input "a". -/
theorem C7_amended_witness : (augment ['a']).length = 2 * (['a'] : List Char).length + 1 :=
  C7_amended.1 ['a'] (by decide)

/-- C8 counterexample: on input "aa" the fast-forward loop assigns the boundary
position `original_center + original_radius` itself: the write at position 4 is
performed while the just-finished palindrome is `(original_center, original_radius)
= (3, 1)`, and `4 = 3 + 1` is not strictly inside `[3 - 1, 3 + 1]`. -/
theorem C8_counterexample :
    (3, 1, 4) ∈ manachersTrace ['a', 'a'] ∧ 4 = 3 + 1 := by
  constructor
  · simp [manachersTrace, outerLoop, fastForward, expandLoop, augment, pyJoin, SEP]
  · rfl

/-- C8 amended: every position assigned by the fast-forward loop lies in the
half-open interval `(oc - orr, oc + orr]` of the just-finished palindrome — strictly
inside the left boundary (indeed strictly right of `oc`), but possibly equal to the
right boundary `oc + orr`, which case 2 does assign (with radius 0). -/
theorem C8_amended (s : List Char) (oc orr p : Nat)
    (h : (oc, orr, p) ∈ manachersTrace s) :
    oc - orr < p ∧ p ≤ oc + orr := by
  obtain ⟨q, hq, _, _, htr⟩ := manacher_pass_spec s
  simp only [manachersTrace, hq] at h
  have hb := htr (oc, orr, p) h
  have hb1 : oc < p := hb.1
  have hb2 : p ≤ oc + orr := hb.2
  exact ⟨by omega, hb2⟩

/-- Witness for C8 (amended) at the concrete input "aa". -/
theorem C8_amended_witness : 3 - 1 < 4 ∧ 4 ≤ 3 + 1 :=
  C8_amended ['a', 'a'] 3 1 4
    (by simp [manachersTrace, outerLoop, fastForward, expandLoop, augment, pyJoin, SEP])

/-- C9: on the empty input all four entry points return the empty string and no run
fails (the linear engine returns `some`). -/
theorem C9_empty_input :
    expansion_around_centers [] = [] ∧
    augmentation_with_separator [] = [] ∧
    palindromic_radii_array [] = [] ∧
    manachers_algorithm [] = some [] := by
  refine ⟨rfl, rfl, ?_, ?_⟩
  · simp [palindromic_radii_array, praLoop, expandLoop, augment, pyJoin, maxScan,
      maxScanAux, radiiToSlice, pySlice, sliceIdx, SEP]
  · simp [manachers_algorithm, outerLoop, fastForward, expandLoop, augment, pyJoin,
      maxScan, maxScanAux, radiiToSlice, pySlice, sliceIdx, SEP]

/-- C10: the radii array computed by the linear pass of `manachers_algorithm`
(mirrored-center reuse) is element-wise identical to the array computed by
`palindromic_radii_array` (independent expansion at every center). -/
theorem C10_radii_arrays_equal (s : List Char) (q : List Nat × List (Nat × Nat × Nat))
    (hq : outerLoop (augment s) (List.replicate (augment s).length 0) 0 0 = some q) :
    q.1 = praLoop (augment s) (List.replicate (augment s).length 0) 0 := by
  obtain ⟨q0, hq0, hlen0, hinv0, _⟩ := manacher_pass_spec s
  have hqe : q0 = q := Option.some_inj.mp (hq0.symm.trans hq)
  subst hqe
  obtain ⟨hplen, hpinv⟩ := praLoop_spec (augment s) (List.replicate (augment s).length 0) 0
    (by simp) (fun j hj => absurd hj (by omega))
  exact radii_eq hlen0 hplen hinv0 hpinv

/-- Witness for C10 at the concrete input "aba". -/
theorem C10_radii_arrays_equal_witness :
    (([0, 1, 0, 3, 0, 1, 0], [(3, 3, 4)]) : List Nat × List (Nat × Nat × Nat)).1 =
      praLoop (augment ['a', 'b', 'a'])
        (List.replicate (augment ['a', 'b', 'a']).length 0) 0 :=
  C10_radii_arrays_equal ['a', 'b', 'a'] ([0, 1, 0, 3, 0, 1, 0], [(3, 3, 4)])
    (by simp [outerLoop, fastForward, expandLoop, augment, pyJoin, SEP])

/-- C1: on every input without the separator character, the four entry points return
identical result strings (the linear engine wrapped in `some` as it alone can, in
principle, fail). -/
theorem C1_four_way_agreement (s : List Char) (hsep : SEP ∉ s) :
    manachers_algorithm s = some (expansion_around_centers s) ∧
    augmentation_with_separator s = expansion_around_centers s ∧
    palindromic_radii_array s = expansion_around_centers s := by
  by_cases hs : s = []
  · subst hs
    exact ⟨manacher_empty, rfl, pra_empty⟩
  · obtain ⟨i, L, hman, heac, haws, hpra, _⟩ := master s hs
    rw [heac, hman, haws, hpra]
    exact ⟨rfl, rfl, rfl⟩

/-- Witness for C1 at the concrete input "ab". -/
theorem C1_four_way_agreement_witness :
    manachers_algorithm ['a', 'b'] = some (expansion_around_centers ['a', 'b']) ∧
    augmentation_with_separator ['a', 'b'] = expansion_around_centers ['a', 'b'] ∧
    palindromic_radii_array ['a', 'b'] = expansion_around_centers ['a', 'b'] :=
  C1_four_way_agreement ['a', 'b'] (by decide)

/-- C2: on every input without the separator character, `manachers_algorithm` returns
a contiguous substring of the input that equals its own reverse, and no strictly
longer contiguous substring, at any position, is a palindrome. -/
theorem C2_longest_palindrome (s : List Char) (hsep : SEP ∉ s) :
    ∃ out, manachers_algorithm s = some out ∧
      (∃ i, i + out.length ≤ s.length ∧ out = subAt s i out.length) ∧
      out.reverse = out ∧
      (∀ i m, i + m ≤ s.length → out.length < m →
        (subAt s i m).reverse ≠ subAt s i m) := by
  by_cases hs : s = []
  · subst hs
    refine ⟨[], manacher_empty, ⟨0, by simp [subAt], by simp [subAt]⟩, rfl, ?_⟩
    intro i m him hm
    simp only [List.length_nil] at him hm
    omega
  · obtain ⟨i, L, hman, heac, haws, hpra, hile, hL1, hpal, hmax, hleft⟩ := master s hs
    refine ⟨subAt s i L, hman, ⟨i, ?_, ?_⟩, hpal, ?_⟩
    · rw [subAt_length hile]; exact hile
    · rw [subAt_length hile]
    · intro i' m him hm
      rw [subAt_length hile] at hm
      exact hmax i' m him hm

/-- Witness for C2 at the concrete input "ab". -/
theorem C2_longest_palindrome_witness :
    ∃ out, manachers_algorithm ['a', 'b'] = some out ∧
      (∃ i, i + out.length ≤ (['a', 'b'] : List Char).length ∧
        out = subAt ['a', 'b'] i out.length) ∧
      out.reverse = out ∧
      (∀ i m, i + m ≤ (['a', 'b'] : List Char).length → out.length < m →
        (subAt ['a', 'b'] i m).reverse ≠ subAt ['a', 'b'] i m) :=
  C2_longest_palindrome ['a', 'b'] (by decide)

/-- C4: on every input without the separator character, the four entry points all
return the same window, which is the leftmost among all palindromic substrings of
maximal length: it is a palindrome, nothing strictly longer is, and no occurrence of
that maximal length starts earlier. -/
theorem C4_leftmost_of_maximal (s : List Char) (hsep : SEP ∉ s) :
    ∃ out i L,
      manachers_algorithm s = some out ∧ expansion_around_centers s = out ∧
      augmentation_with_separator s = out ∧ palindromic_radii_array s = out ∧
      out = subAt s i L ∧ out.length = L ∧ out.reverse = out ∧
      (∀ i' m, i' + m ≤ s.length → L < m →
        (subAt s i' m).reverse ≠ subAt s i' m) ∧
      (∀ i', i' < i → i' + L ≤ s.length →
        (subAt s i' L).reverse ≠ subAt s i' L) := by
  by_cases hs : s = []
  · subst hs
    refine ⟨[], 0, 0, manacher_empty, rfl, rfl, pra_empty, by simp [subAt], rfl, rfl,
      ?_, ?_⟩
    · intro i' m him hm
      simp only [List.length_nil] at him
      omega
    · intro i' hi' him
      omega
  · obtain ⟨i, L, hman, heac, haws, hpra, hile, hL1, hpal, hmax, hleft⟩ := master s hs
    exact ⟨subAt s i L, i, L, hman, heac, haws, hpra, rfl, subAt_length hile, hpal,
      hmax, hleft⟩

/-- Witness for C4 at the concrete input "ab". -/
theorem C4_leftmost_of_maximal_witness :
    ∃ out i L,
      manachers_algorithm ['a', 'b'] = some out ∧
      expansion_around_centers ['a', 'b'] = out ∧
      augmentation_with_separator ['a', 'b'] = out ∧
      palindromic_radii_array ['a', 'b'] = out ∧
      out = subAt ['a', 'b'] i L ∧ out.length = L ∧ out.reverse = out ∧
      (∀ i' m, i' + m ≤ (['a', 'b'] : List Char).length → L < m →
        (subAt ['a', 'b'] i' m).reverse ≠ subAt ['a', 'b'] i' m) ∧
      (∀ i', i' < i → i' + L ≤ (['a', 'b'] : List Char).length →
        (subAt ['a', 'b'] i' L).reverse ≠ subAt ['a', 'b'] i' L) :=
  C4_leftmost_of_maximal ['a', 'b'] (by decide)

end Manacher
